import Mathlib

/-!
# Verification development for `editor.c`

A shallow embedding of the text buffer engine (`insert_char`, `delete_char`,
`insert_line`, the cursor handlers of `main`), of the persistence routines
(`save_file`, `load_file`) and of the highlighter (`draw_line_with_syntax`).

Conventions of the embedding:

* a C string is the list of its bytes before the terminating NUL (`Line`);
* the array `char *lines[MAX_LINES]` is a map from slot index to the content
  of the string the slot points to; slots at or above `num_lines` are never
  read by the program before being overwritten;
* the `int` fields `num_lines`, `cursor_x`, `cursor_y` never go negative in the
  program (every decrement is guarded) and are natural numbers;
* the embedding tracks string contents; the `MAX_COLS` bytes of a line's
  allocation are held against the writes of `insert_char`, the one function
  that writes without a capacity test, in `insert_char_checked`;
* the screen is the list of what `addch` and `addstr` were handed, each value
  with the colour pair in force in the window at the call; the pair in force
  stays on from one line, and from one `draw_screen`, to the next.
-/

namespace EditorC

/-- The bytes of a C string, terminator excluded. -/
abbrev Line := List Nat

/-- The constant `#define MAX_LINES 1000`. -/
def MAX_LINES : Nat := 1000

/-- The constant `#define MAX_COLS 1000`. -/
def MAX_COLS : Nat := 1000

/-- The part of `struct Editor` the buffer engine reads and writes. -/
structure Editor where
  lines : Nat → Line
  num_lines : Nat
  cursor_x : Nat
  cursor_y : Nat

/-- State set up by `init_editor` on the zero-initialised global `ed`. -/
def init_editor : Editor :=
  { lines := fun _ => [], num_lines := 1, cursor_x := 0, cursor_y := 0 }

/-- Function `insert_char`: `memmove` the tail one place right, store `ch`, advance the
cursor. The line is the string these writes leave, whatever the size of the buffer they go
to: the function has no capacity test; `insert_char_checked` holds them against the
`MAX_COLS` bytes of the buffer. -/
def insert_char (ed : Editor) (ch : Nat) : Editor :=
  let line := ed.lines ed.cursor_y
  { ed with
    lines := Function.update ed.lines ed.cursor_y
      (line.take ed.cursor_x ++ ch :: line.drop ed.cursor_x)
    cursor_x := ed.cursor_x + 1 }

/-- The loop `for (i = start; i < num_lines - 1; i++) lines[i] = lines[i + 1];` of
`delete_char`, as its `count` successive iterations from index `i`. -/
def shift_up (lines : Nat → Line) (i : Nat) : Nat → (Nat → Line)
  | 0 => lines
  | count + 1 => shift_up (Function.update lines i (lines (i + 1))) (i + 1) count

/-- The loop `for (i = num_lines; i > cursor_y + 1; i--) lines[i] = lines[i - 1];` of
`insert_line`, as its `count` successive iterations from index `i`. -/
def shift_down (lines : Nat → Line) (i : Nat) : Nat → (Nat → Line)
  | 0 => lines
  | count + 1 => shift_down (Function.update lines i (lines (i - 1))) (i - 1) count

/-- Function `delete_char`: backspace inside a line, or merge with the previous line when
the cursor is at column 0 of a row above 0 and the merged line passes the length test. -/
def delete_char (ed : Editor) : Editor :=
  if 0 < ed.cursor_x then
    let line := ed.lines ed.cursor_y
    { ed with
      lines := Function.update ed.lines ed.cursor_y
        (line.take (ed.cursor_x - 1) ++ line.drop ed.cursor_x)
      cursor_x := ed.cursor_x - 1 }
  else if 0 < ed.cursor_y then
    let prev_line := ed.lines (ed.cursor_y - 1)
    let curr_line := ed.lines ed.cursor_y
    let prev_len := prev_line.length
    if prev_len + curr_line.length < MAX_COLS - 1 then
      let lines1 := Function.update ed.lines (ed.cursor_y - 1) (prev_line ++ curr_line)
      let y := ed.cursor_y - 1
      { lines := shift_up lines1 (y + 1) (ed.num_lines - 1 - (y + 1))
        num_lines := ed.num_lines - 1
        cursor_x := prev_len
        cursor_y := y }
    else ed
  else ed

/-- Function `insert_line`: split the current line at the cursor, unless the line-count test fails. -/
def insert_line (ed : Editor) : Editor :=
  if ed.num_lines < MAX_LINES - 1 then
    let lines1 := shift_down ed.lines ed.num_lines (ed.num_lines - (ed.cursor_y + 1))
    let curr_line := lines1 ed.cursor_y
    let lines2 := Function.update lines1 (ed.cursor_y + 1) (curr_line.drop ed.cursor_x)
    let lines3 := Function.update lines2 ed.cursor_y (curr_line.take ed.cursor_x)
    { lines := lines3
      num_lines := ed.num_lines + 1
      cursor_x := 0
      cursor_y := ed.cursor_y + 1 }
  else ed

/-- The `case KEY_UP` of `main`. -/
def move_up (ed : Editor) : Editor :=
  if 0 < ed.cursor_y then
    let y := ed.cursor_y - 1
    let len := (ed.lines y).length
    { ed with cursor_y := y, cursor_x := if len < ed.cursor_x then len else ed.cursor_x }
  else ed

/-- The `case KEY_DOWN` of `main`. -/
def move_down (ed : Editor) : Editor :=
  if ed.cursor_y < ed.num_lines - 1 then
    let y := ed.cursor_y + 1
    let len := (ed.lines y).length
    { ed with cursor_y := y, cursor_x := if len < ed.cursor_x then len else ed.cursor_x }
  else ed

/-- The `case KEY_LEFT` of `main`. -/
def move_left (ed : Editor) : Editor :=
  if 0 < ed.cursor_x then { ed with cursor_x := ed.cursor_x - 1 } else ed

/-- The `case KEY_RIGHT` of `main`. -/
def move_right (ed : Editor) : Editor :=
  if ed.cursor_x < (ed.lines ed.cursor_y).length then { ed with cursor_x := ed.cursor_x + 1 }
  else ed

/-- The cursor designates a position of the buffer: a live row and a column of that row. -/
def valid_cursor (ed : Editor) : Prop :=
  ed.cursor_y < ed.num_lines ∧ ed.cursor_x ≤ (ed.lines ed.cursor_y).length

/-- The well-formedness predicate of the editor state. -/
def well_formed (ed : Editor) : Prop :=
  1 ≤ ed.num_lines ∧ ed.cursor_y < ed.num_lines ∧
    ed.cursor_x ≤ (ed.lines ed.cursor_y).length

instance valid_cursor_decidable (ed : Editor) : Decidable (valid_cursor ed) := by
  unfold valid_cursor
  exact inferInstance

instance well_formed_decidable (ed : Editor) : Decidable (well_formed ed) := by
  unfold well_formed
  exact inferInstance

/-- The live lines of the buffer, slot 0 first. -/
def buffer_lines (ed : Editor) : List Line :=
  (List.range ed.num_lines).map ed.lines

/-! ## Persistence -/

/-- What `fgets` stores from the unread bytes of a stream when it may still read `n` bytes:
it stops after a newline, at end of file, or when `n` bytes are read. The result is the
bytes stored and the bytes left unread. -/
def fgets_read : Nat → List Nat → List Nat × List Nat
  | 0, s => ([], s)
  | _ + 1, [] => ([], [])
  | n + 1, c :: s =>
    if c = 10 then ([c], s) else (c :: (fgets_read n s).1, (fgets_read n s).2)

/-- The C string held by a buffer filled with `bytes` and then terminated: it ends at the
first NUL byte. -/
def c_string (bytes : List Nat) : Line := bytes.takeWhile (fun c => c != 0)

/-- The statement `buffer[strcspn(buffer, "\n")] = '\0'`: the string is cut at its first newline. -/
def strip_newline (buffer : Line) : Line := buffer.takeWhile (fun c => c != 10)

/-- The loop `while (fgets(buffer, sizeof(buffer), f) && ed.num_lines < MAX_LINES)` of
`load_file` on the unread bytes `f`; `fgets` returns `NULL` exactly at end of file. Each
iteration adds a line, so `MAX_LINES` iterations are the most the loop can make from
`num_lines = 0`; `fuel` bounds the iterations. -/
def load_loop : Nat → List Nat → Editor → Editor
  | 0, _, ed => ed
  | _ + 1, [], ed => ed
  | fuel + 1, c :: s, ed =>
    if ed.num_lines < MAX_LINES then
      let r := fgets_read (MAX_COLS - 1) (c :: s)
      load_loop fuel r.2
        { ed with
          lines := Function.update ed.lines ed.num_lines (strip_newline (c_string r.1))
          num_lines := ed.num_lines + 1 }
    else ed

/-- Function `load_file`: `file` is the content of the named file, `none` when `fopen` fails. -/
def load_file (file : Option (List Nat)) (ed : Editor) : Editor :=
  match file with
  | some f =>
    let ed1 := load_loop MAX_LINES f { ed with num_lines := 0 }
    if ed1.num_lines = 0 then
      { ed1 with lines := Function.update ed1.lines 0 [], num_lines := 1 }
    else ed1
  | none => { ed with lines := Function.update ed.lines 0 [], num_lines := 1 }

/-- Function `save_file`: the bytes written to the file when `fopen` succeeds, each live line
followed by one newline. -/
def save_file (ed : Editor) : List Nat :=
  (buffer_lines ed).flatMap (fun line => line ++ [10])

/-- The lines a run of the loading loop adds when `k` slots remain, as a list. -/
def load_lines : Nat → List Nat → List Line
  | 0, _ => []
  | _ + 1, [] => []
  | k + 1, c :: s =>
    strip_newline (c_string (fgets_read (MAX_COLS - 1) (c :: s)).1)
      :: load_lines k (fgets_read (MAX_COLS - 1) (c :: s)).2

/-! ## Highlighter -/

/-- The `isspace` of `<ctype.h>` in the C locale. -/
def isspace (c : Nat) : Bool := c == 32 || (9 ≤ c && c ≤ 13)

/-- The `isdigit` of `<ctype.h>`. -/
def isdigit (c : Nat) : Bool := 48 ≤ c && c ≤ 57

/-- The `isalpha` of `<ctype.h>` in the C locale. -/
def isalpha (c : Nat) : Bool := (65 ≤ c && c ≤ 90) || (97 ≤ c && c ≤ 122)

/-- The `isalnum` of `<ctype.h>` in the C locale. -/
def isalnum (c : Nat) : Bool := isalpha c || isdigit c

/-- The bytes of a string literal of the source. -/
def bytes (s : String) : Line := s.toList.map Char.toNat

/-- The table `keywords[]` of `is_c_keyword`. -/
def keywords : List Line :=
  ["auto", "break", "case", "char", "const", "continue", "default", "do",
   "double", "else", "enum", "extern", "float", "for", "goto", "if",
   "int", "long", "register", "return", "short", "signed", "sizeof", "static",
   "struct", "switch", "typedef", "union", "unsigned", "void", "volatile", "while"].map bytes

/-- Function `is_c_keyword`: the linear search of the first 32 entries of the table with `strcmp`. -/
def is_c_keyword (word : Line) : Bool := (keywords.take 32).any (fun k => word == k)

/-- The character `line[i]`; at `i = strlen(line)` this is the terminating NUL. -/
def char_at (line : Line) (i : Nat) : Nat := line.getD i 0

/-- The states of one line of the comment pre-scan of `draw_line_with_syntax`: the loop
`for (j = 0; j < prev_len; j++)` from index `j` with the flag `in_comment`, returning the
flag at loop exit. `fuel` bounds the iterations; each one advances `j`. -/
def prescan_line (prev : Line) : Nat → Nat → Bool → Bool
  | 0, _, in_comment => in_comment
  | fuel + 1, j, in_comment =>
    if j < prev.length then
      if in_comment then
        if char_at prev j = 42 ∧ j + 1 < prev.length ∧ char_at prev (j + 1) = 47 then
          prescan_line prev fuel (j + 1 + 1) false
        else prescan_line prev fuel (j + 1) true
      else
        if char_at prev j = 47 ∧ j + 1 < prev.length ∧ char_at prev (j + 1) = 47 then
          false
        else if char_at prev j = 47 ∧ j + 1 < prev.length ∧ char_at prev (j + 1) = 42 then
          prescan_line prev fuel (j + 1 + 1) true
        else prescan_line prev fuel (j + 1) false
    else in_comment

/-- The comment pre-scan of `draw_line_with_syntax(line_num, _)`: the value of `in_comment`
after the loop over the lines `0 .. line_num - 1`, which is the state the token scan of line
`line_num` starts from. -/
def prescan (lines : Nat → Line) : Nat → Bool
  | 0 => false
  | n + 1 => prescan_line (lines n) (lines n).length 0 (prescan lines n)

/-- The variables of the token scan of `draw_line_with_syntax` and what it hands to the
screen: `attr` is the colour pair switched on in the window (0 when none is), `out` the
values handed to `addch` and the bytes handed to `addstr`, in order, each with the colour
pair in force in the window at that call. -/
structure Scan where
  i : Nat
  in_comment : Bool
  attr : Nat
  out : List (Nat × Nat)

/-- The value `addch` receives for the byte `c` of the line. The parameter of `addch` is a
`chtype`, an unsigned integer of 32 bits whose low 8 bits are the character and whose other
bits are attribute and colour bits; the source passes a plain `char`, which is signed on the
platform modelled, so a byte of 128 or more arrives sign-extended, with all these bits set. -/
def chtype_of_char (c : Nat) : Nat := if c < 128 then c else c + 4294967040

/-- The character part of a `chtype`, its low 8 bits (`A_CHARTEXT`). -/
def chartext (v : Nat) : Nat := v % 256

/-- The call `attron(COLOR_PAIR(p))`. -/
def Scan.attron (s : Scan) (p : Nat) : Scan := { s with attr := p }

/-- The call `attroff(COLOR_PAIR(p))`, which leaves no colour pair on. -/
def Scan.attroff (s : Scan) : Scan := { s with attr := 0 }

/-- The call `addch(c)` with `c` a plain `char` read from the line. -/
def Scan.addch (s : Scan) (c : Nat) : Scan :=
  { s with out := s.out ++ [(chtype_of_char c, s.attr)] }

/-- The call `addstr(str)`, which takes the bytes of the string as unsigned characters. -/
def Scan.addstr (s : Scan) (str : Line) : Scan :=
  { s with out := s.out ++ str.map (fun c => (c, s.attr)) }

/-- The step `i++`. -/
def Scan.next (s : Scan) : Scan := { s with i := s.i + 1 }

/-- The step `i--`. -/
def Scan.back (s : Scan) : Scan := { s with i := s.i - 1 }

/-- The loop `while (i < len && line[i] != q) { ... }` of the string (`q` the double quote)
and character-literal (`q` the single quote) branches. -/
def quoted_loop (q : Nat) (line : Line) : Nat → Scan → Scan
  | 0, s => s
  | fuel + 1, s =>
    if s.i < line.length ∧ char_at line s.i ≠ q then
      let s1 :=
        if char_at line s.i = 92 ∧ s.i + 1 < line.length then
          (s.addch (char_at line s.i)).next
        else s
      quoted_loop q line fuel (s1.addch (char_at line s1.i)).next
    else s

/-- The loops `while (i < len && p(line[i])) { addch(line[i]); i++; }` of the preprocessor
and number branches. -/
def emit_while (p : Nat → Bool) (line : Line) : Nat → Scan → Scan
  | 0, s => s
  | fuel + 1, s =>
    if s.i < line.length ∧ p (char_at line s.i) = true then
      emit_while p line fuel (s.addch (char_at line s.i)).next
    else s

/-- The loop `while (i < len && (isalnum(line[i]) || line[i] == '_')) i++;` of the
identifier branch. -/
def skip_word (line : Line) : Nat → Scan → Scan
  | 0, s => s
  | fuel + 1, s =>
    if s.i < line.length ∧ (isalnum (char_at line s.i) || char_at line s.i == 95) = true then
      skip_word line fuel s.next
    else s

/-- The string and the character-literal branch, `q` being the quote that opened it. -/
def scan_quoted (q : Nat) (line : Line) (s : Scan) : Scan :=
  let s1 := ((s.attron 2).addch (char_at line s.i)).next
  let s2 := quoted_loop q line line.length s1
  let s3 := if s2.i < line.length then s2.addch (char_at line s2.i) else s2
  s3.attroff

/-- The identifier branch: the word is written only when it is shorter than the 100-byte
buffer `word`, in colour pair 1 when it is a keyword. -/
def scan_word (line : Line) (s : Scan) : Scan :=
  let start := s.i
  let s1 := skip_word line line.length s
  let word_len := s1.i - start
  let word := (line.drop start).take word_len
  let s2 :=
    if word_len < 100 then
      if is_c_keyword word = true then ((s1.attron 1).addstr word).attroff
      else s1.addstr word
    else s1
  s2.back

/-- One pass through the body of the loop `for (int i = 0; i < len; i++)` of the token scan,
entered with `i < len`. The Boolean tells whether the body left the loop with `break`;
otherwise the loop goes on with `i++`. -/
def scan_iter (line : Line) (s : Scan) : Scan × Bool :=
  let len := line.length
  let ch := char_at line s.i
  if s.in_comment = true then
    let s1 := s.attron 3
    if ch = 42 ∧ s.i + 1 < len ∧ char_at line (s.i + 1) = 47 then
      (({ (s1.addch ch).addch (char_at line (s.i + 1)) with in_comment := false }).attroff.next,
        false)
    else (s1.addch ch, false)
  else if ch = 47 ∧ s.i + 1 < len ∧ char_at line (s.i + 1) = 47 then
    (((s.attron 3).addstr (line.drop s.i)).attroff, true)
  else if ch = 47 ∧ s.i + 1 < len ∧ char_at line (s.i + 1) = 42 then
    (({ ((s.attron 3).addch ch).addch (char_at line (s.i + 1)) with in_comment := true }).next,
      false)
  else if ch = 34 then (scan_quoted 34 line s, false)
  else if ch = 39 then (scan_quoted 39 line s, false)
  else if ch = 35 ∧ (s.i = 0 ∨ isspace (char_at line (s.i - 1)) = true) then
    ((emit_while (fun c => c != 32 && c != 9) line len (s.attron 5)).attroff.back, false)
  else if isdigit ch = true ∨
      (ch = 46 ∧ s.i + 1 < len ∧ isdigit (char_at line (s.i + 1)) = true) then
    ((emit_while (fun c => isdigit c || c == 46 || c == 102 || c == 108) line len
      (s.attron 4)).attroff.back, false)
  else if isalpha ch = true ∨ ch = 95 then (scan_word line s, false)
  else (s.addch ch, false)

/-- The loop `for (int i = 0; i < len; i++)` of the token scan, from the state `s`; `fuel`
bounds the passes through the body. -/
def scan_loop (line : Line) : Nat → Scan → Scan
  | 0, s => s
  | fuel + 1, s =>
    if s.i < line.length then
      if (scan_iter line s).2 = true then (scan_iter line s).1
      else scan_loop line fuel (scan_iter line s).1.next
    else s

/-- The token scan of `draw_line_with_syntax` on one line, entered with the comment flag
`in_comment` and the colour pair `attr` in force; every pass advances `i`, so `strlen(line)`
passes are the most the loop makes. -/
def scan_line (line : Line) (in_comment : Bool) (attr : Nat) : Scan :=
  scan_loop line line.length { i := 0, in_comment := in_comment, attr := attr, out := [] }

/-- The comment flag with which the token scan leaves a line. -/
def exit_state (line : Line) (in_comment : Bool) : Bool :=
  (scan_line line in_comment 0).in_comment

/-- The replay named by the specification: the comment flag obtained by running the token
scan over the lines `0 .. n - 1` in order, starting from "not in comment". -/
def replay_exit (lines : Nat → Line) : Nat → Bool
  | 0 => false
  | n + 1 => exit_state (lines n) (replay_exit lines n)

/-! ## Sample states and files -/

/-- A three-line buffer `"hi"`, `"yo"`, `"z"` with the cursor inside the first line. -/
def sample3 : Editor :=
  { lines := fun j => if j = 0 then [104, 105] else if j = 1 then [121, 111]
      else if j = 2 then [122] else []
    num_lines := 3, cursor_x := 1, cursor_y := 0 }

/-- The buffer of `sample3` with the cursor at the start of its second line. -/
def sample3_bol : Editor := { sample3 with cursor_x := 0, cursor_y := 1 }

/-- Two lines of 600 characters each, cursor at the start of the second. -/
def wide2 : Editor :=
  { lines := fun _ => List.replicate 600 97, num_lines := 2, cursor_x := 0, cursor_y := 1 }

/-- A buffer of `MAX_LINES` empty lines, as `load_file` builds from a file of 1000 newlines,
with the cursor moved down to the start of the second line. -/
def full_buffer : Editor :=
  { lines := fun _ => [], num_lines := 1000, cursor_x := 0, cursor_y := 1 }

/-- A buffer of 999 empty lines with the cursor at the origin. -/
def buffer999 : Editor :=
  { lines := fun _ => [], num_lines := 999, cursor_x := 0, cursor_y := 0 }

/-- One line of 999 characters, the longest string a `MAX_COLS`-byte allocation holds, with
the cursor at its end. -/
def full_line : Editor :=
  { lines := fun _ => List.replicate 999 97, num_lines := 1, cursor_x := 999, cursor_y := 0 }

/-- The buffer `"hello"`, `"yo"` with the cursor at the end of the first line. -/
def sample_hello : Editor :=
  { lines := fun j => if j = 0 then [104, 101, 108, 108, 111] else if j = 1 then [121, 111]
      else []
    num_lines := 2, cursor_x := 5, cursor_y := 0 }

/-- A line holds neither a newline nor a NUL byte. -/
def clean (l : Line) : Prop := ∀ c ∈ l, c ≠ 10 ∧ c ≠ 0

instance clean_decidable (l : Line) : Decidable (clean l) := by
  unfold clean
  exact inferInstance

/-- Every line of the file `f` is shorter than `MAX_COLS - 1` characters, a line being a
maximal run of bytes other than the newline; `run` counts the bytes of the current line that
precede `f`. -/
def short_lines : List Nat → Nat → Bool
  | [], run => decide (run < MAX_COLS - 1)
  | c :: s, run =>
    if c = 10 then decide (run < MAX_COLS - 1) && short_lines s 0 else short_lines s (run + 1)

/-- A file holding one line of 999 characters and its newline. -/
def long_file : List Nat := List.replicate 999 97 ++ [10]

/-- A file holding the two lines `"hi"` and `"yo"`, the last one without a newline. -/
def small_file : List Nat := [104, 105, 10, 121, 111]

/-- A two-line buffer whose first line is the string literal `"/*"` (a double quote, a slash,
a star, a double quote) and whose second line is `int x;`. -/
def quoted_comment_lines : Nat → Line :=
  fun j => if j = 0 then [34, 47, 42, 34] else if j = 1 then bytes "int x;" else []

/-! ## Highlighter: the spans as the specification words them -/

/-- The characters of a string or character literal between its opening quote and its
closing quote `q`, read off the characters that follow the opening quote: a backslash takes
the character after it along, and the body ends before the first quote not taken along in
this way, or at the end of the line. -/
def quoted_body (q : Nat) : Line → Line
  | [] => []
  | [c] => if c = q then [] else [c]
  | c :: d :: t =>
    if c = q then [] else if c = 92 then c :: d :: quoted_body q t
    else c :: quoted_body q (d :: t)

/-- The span of a string or character literal after its opening quote: the body and, when
the line goes on after the body, the closing quote. -/
def quoted_span (q : Nat) (rest : Line) : Line :=
  quoted_body q rest ++ (if (quoted_body q rest).length < rest.length then [q] else [])

/-- The line holds the two characters `*/` next to each other somewhere. -/
def has_close : Line → Bool
  | [] => false
  | [_] => false
  | c :: d :: t => (c == 42 && d == 47) || has_close (d :: t)

/-- A character that goes on an identifier: a letter, a digit or the underscore. -/
def is_word_char (c : Nat) : Bool := isalnum c || c == 95

/-- A character that goes on a number span: a digit, `.`, `f` or `l`. -/
def is_number_char (c : Nat) : Bool := isdigit c || c == 46 || c == 102 || c == 108

/-- A character that goes on a preprocessor span: anything but a space and a tab. -/
def is_directive_char (c : Nat) : Bool := c != 32 && c != 9

/-- The loop of the token scan run from the state `s` with as many passes allowed as
characters remain after `s.i`. -/
def scan_from (line : Line) (s : Scan) : Scan := scan_loop line (line.length - s.i) s

/-! ## Highlighter with checked reads

The same token scan with every read of `line[...]` checked: a read outside `0 .. len - 1`,
an `i--` below 0 and a loop that is still running when its bound of passes is used up all
give `none`. The tests are evaluated left to right, as `&&` and `||` are in C. -/

/-- A read of `line[idx]`, which fails at `idx >= len`. -/
def read_at (line : Line) (idx : Nat) : Option Nat := line.get? idx

/-- The test `i + 1 < len && p(line[i + 1])`. -/
def follows (line : Line) (i : Nat) (p : Nat → Bool) : Option Bool :=
  if i + 1 < line.length then (read_at line (i + 1)).map p else some false

/-- The test `i == 0 || isspace(line[i - 1])`. -/
def after_space (line : Line) (i : Nat) : Option Bool :=
  if i = 0 then some true else (read_at line (i - 1)).map isspace

/-- The step `i--`, which fails below 0. -/
def back_checked (s : Scan) : Option Scan := if s.i = 0 then none else some s.back

/-- The loop of the string and character-literal branches with checked reads. -/
def quoted_loop_checked (q : Nat) (line : Line) : Nat → Scan → Option Scan
  | 0, s =>
    if s.i < line.length then
      match read_at line s.i with
      | none => none
      | some c => if c ≠ q then none else some s
    else some s
  | fuel + 1, s =>
    if s.i < line.length then
      match read_at line s.i with
      | none => none
      | some c =>
        if c ≠ q then
          let s1 := if c = 92 ∧ s.i + 1 < line.length then (s.addch c).next else s
          match read_at line s1.i with
          | none => none
          | some d => quoted_loop_checked q line fuel (s1.addch d).next
        else some s
    else some s

/-- The loops of the preprocessor and number branches with checked reads. -/
def emit_while_checked (p : Nat → Bool) (line : Line) : Nat → Scan → Option Scan
  | 0, s =>
    if s.i < line.length then
      match read_at line s.i with
      | none => none
      | some c => if p c = true then none else some s
    else some s
  | fuel + 1, s =>
    if s.i < line.length then
      match read_at line s.i with
      | none => none
      | some c =>
        if p c = true then emit_while_checked p line fuel (s.addch c).next else some s
    else some s

/-- The loop of the identifier branch with checked reads. -/
def skip_word_checked (line : Line) : Nat → Scan → Option Scan
  | 0, s =>
    if s.i < line.length then
      match read_at line s.i with
      | none => none
      | some c => if (isalnum c || c == 95) = true then none else some s
    else some s
  | fuel + 1, s =>
    if s.i < line.length then
      match read_at line s.i with
      | none => none
      | some c =>
        if (isalnum c || c == 95) = true then skip_word_checked line fuel s.next else some s
    else some s

/-- The string and character-literal branch with checked reads; `ch` is the quote read at
`s.i`. -/
def scan_quoted_checked (q : Nat) (line : Line) (s : Scan) (ch : Nat) : Option Scan :=
  match quoted_loop_checked q line line.length ((s.attron 2).addch ch).next with
  | none => none
  | some s2 =>
    if s2.i < line.length then
      match read_at line s2.i with
      | none => none
      | some c => some (s2.addch c).attroff
    else some s2.attroff

/-- The identifier branch with checked reads: `strncpy` reads the `word_len` characters from
`start`, which must lie inside the line. -/
def scan_word_checked (line : Line) (s : Scan) : Option Scan :=
  match skip_word_checked line line.length s with
  | none => none
  | some s1 =>
    let start := s.i
    let word_len := s1.i - start
    if start + word_len ≤ line.length then
      let word := (line.drop start).take word_len
      let s2 :=
        if word_len < 100 then
          if is_c_keyword word = true then ((s1.attron 1).addstr word).attroff
          else s1.addstr word
        else s1
      back_checked s2
    else none

/-- One pass through the loop body with checked reads. -/
def scan_iter_checked (line : Line) (s : Scan) : Option (Scan × Bool) :=
  match read_at line s.i with
  | none => none
  | some ch =>
    if s.in_comment = true then
      match (if ch = 42 then follows line s.i (fun d => d == 47) else some false) with
      | none => none
      | some true =>
        match read_at line (s.i + 1) with
        | none => none
        | some d =>
          some (({ ((s.attron 3).addch ch).addch d with in_comment := false }).attroff.next,
            false)
      | some false => some ((s.attron 3).addch ch, false)
    else
      match (if ch = 47 then follows line s.i (fun d => d == 47) else some false) with
      | none => none
      | some true => some (((s.attron 3).addstr (line.drop s.i)).attroff, true)
      | some false =>
        match (if ch = 47 then follows line s.i (fun d => d == 42) else some false) with
        | none => none
        | some true =>
          match read_at line (s.i + 1) with
          | none => none
          | some d =>
            some (({ ((s.attron 3).addch ch).addch d with in_comment := true }).next, false)
        | some false =>
          if ch = 34 then (scan_quoted_checked 34 line s ch).map (fun r => (r, false))
          else if ch = 39 then (scan_quoted_checked 39 line s ch).map (fun r => (r, false))
          else
            match (if ch = 35 then after_space line s.i else some false) with
            | none => none
            | some true =>
              match emit_while_checked (fun c => c != 32 && c != 9) line line.length
                  (s.attron 5) with
              | none => none
              | some r => (back_checked r.attroff).map (fun r => (r, false))
            | some false =>
              match (if isdigit ch = true then some true
                  else if ch = 46 then follows line s.i isdigit else some false) with
              | none => none
              | some true =>
                match emit_while_checked
                    (fun c => isdigit c || c == 46 || c == 102 || c == 108) line line.length
                    (s.attron 4) with
                | none => none
                | some r => (back_checked r.attroff).map (fun r => (r, false))
              | some false =>
                if isalpha ch = true ∨ ch = 95 then
                  (scan_word_checked line s).map (fun r => (r, false))
                else some (s.addch ch, false)

/-- The loop of the token scan with checked reads; it fails when `fuel` passes do not bring
`i` to `len`. -/
def scan_loop_checked (line : Line) : Nat → Scan → Option Scan
  | 0, s => if s.i < line.length then none else some s
  | fuel + 1, s =>
    if s.i < line.length then
      match scan_iter_checked line s with
      | none => none
      | some r => if r.2 = true then some r.1 else scan_loop_checked line fuel r.1.next
    else some s

/-- The states in which the loop of the token scan stands at its head when it is started
from `s0`: `s0` itself, and the state after the `i++` that follows a pass which did not
leave the loop. The scanner meets the character at `s.i` in each of these states. -/
inductive Reaches (line : Line) (s0 : Scan) : Scan → Prop
  | start : Reaches line s0 s0
  | pass (s : Scan) : Reaches line s0 s → s.i < line.length → (scan_iter line s).2 = false →
      Reaches line s0 (scan_iter line s).1.next

/-- A line that is one identifier of 100 letters `a`. -/
def long_identifier : Line := List.replicate 100 97

/-- The highest index of the line buffer that `insert_char` writes: `memmove` copies the
`strlen(line) - cursor_x + 1` bytes found from index `cursor_x` on (the tail of the line and
its terminating NUL) to index `cursor_x + 1` on, so the last of them goes to index
`strlen(line) + 1`. -/
def insert_char_top (ed : Editor) : Nat := (ed.lines ed.cursor_y).length + 1

/-- Function `insert_char` on a line buffer of `MAX_COLS` bytes (every line of the buffer is
a `malloc(MAX_COLS)`): the state `insert_char` leaves when all it writes lies inside the
buffer, and no state when `memmove` writes behind the buffer, which the source does not test
for. -/
def insert_char_checked (ed : Editor) (ch : Nat) : Option Editor :=
  if insert_char_top ed < MAX_COLS then some (insert_char ed ch) else none

/-- The loop of `draw_screen` over the screen rows, as the colour pair it leaves in force in
the window after `rows` rows, entered with the pair `attr` in force: row `i` is written by
`draw_line_with_syntax(i + scroll_y, i)`, whose token scan starts with the flag of the
comment pre-scan and with the pair the row before left on (`move` changes no pair). -/
def draw_rows (ed : Editor) (scroll_y : Nat) : Nat → Nat → Nat
  | 0, attr => attr
  | i + 1, attr =>
    (scan_line (ed.lines (i + scroll_y)) (prescan ed.lines (i + scroll_y))
      (draw_rows ed scroll_y i attr)).attr

/-- What row `i` of the loop of `draw_screen` hands to the screen, the loop entered with the
pair `attr` in force. -/
def row_cells (ed : Editor) (scroll_y i attr : Nat) : List (Nat × Nat) :=
  (scan_line (ed.lines (i + scroll_y)) (prescan ed.lines (i + scroll_y))
    (draw_rows ed scroll_y i attr)).out

/-- Function `draw_screen` on a screen of `max_y` rows, as the colour pair it leaves in
force in the window when entered with the pair `attr` in force: the loop runs while
`i < max_y - 1 && i + scroll_y < num_lines`, and `clear`, `mvprintw`, `move` and `refresh`
switch no pair on or off. -/
def draw_screen (ed : Editor) (scroll_y max_y attr : Nat) : Nat :=
  draw_rows ed scroll_y (min (max_y - 1) (ed.num_lines - scroll_y)) attr

/-- The colour pairs that can be in force in the window when a line is drawn: none after
`initscr`, and from then on what the token scan of some line left on, no other part of the
program switching a pair on or off. -/
inductive WindowAttr : Nat → Prop
  | init : WindowAttr 0
  | draw (attr : Nat) (line : Line) (in_comment : Bool) :
      WindowAttr attr → WindowAttr (scan_line line in_comment attr).attr

/-- A buffer of two lines, `a.b` and the unterminated comment `/* c`. -/
def dot_buffer : Editor :=
  { lines := fun j => if j = 0 then bytes "a.b" else if j = 1 then bytes "/* c" else []
    num_lines := 2
    cursor_x := 0
    cursor_y := 0 }

/-- A buffer of two lines, `a#b` and the unterminated comment `/* c`. -/
def hash_buffer : Editor :=
  { lines := fun j => if j = 0 then bytes "a#b" else if j = 1 then bytes "/* c" else []
    num_lines := 2
    cursor_x := 0
    cursor_y := 0 }

/-! ## Loop lemmas -/

theorem shift_up_apply (count : Nat) (lines : Nat → Line) (i j : Nat) :
    shift_up lines i count j = if i ≤ j ∧ j < i + count then lines (j + 1) else lines j := by
  induction count generalizing lines i with
  | zero => rw [shift_up, if_neg (by omega)]
  | succ k ih =>
    rw [shift_up, ih]
    by_cases h1 : i + 1 ≤ j ∧ j < i + 1 + k
    · have h2 : i ≤ j ∧ j < i + (k + 1) := by omega
      rw [if_pos h1, if_pos h2, Function.update_noteq (by omega)]
    · rw [if_neg h1]
      by_cases h3 : j = i
      · subst h3
        rw [Function.update_same, if_pos (by omega)]
      · rw [Function.update_noteq h3, if_neg (by omega)]

theorem shift_down_apply (count : Nat) (lines : Nat → Line) (i j : Nat) (hc : count ≤ i) :
    shift_down lines i count j = if i - count < j ∧ j ≤ i then lines (j - 1) else lines j := by
  induction count generalizing lines i with
  | zero => rw [shift_down, if_neg (by omega)]
  | succ k ih =>
    rw [shift_down, ih _ _ (by omega)]
    by_cases h1 : i - 1 - k < j ∧ j ≤ i - 1
    · have h2 : i - (k + 1) < j ∧ j ≤ i := by omega
      rw [if_pos h1, if_pos h2, Function.update_noteq (by omega)]
    · rw [if_neg h1]
      by_cases h3 : j = i
      · subst h3
        rw [Function.update_same, if_pos (by omega)]
      · rw [Function.update_noteq h3, if_neg (by omega)]

/-! ## What the two structural edits leave in each slot -/

theorem insert_line_lines (ed : Editor) (hs : ed.num_lines < MAX_LINES - 1)
    (hy : ed.cursor_y < ed.num_lines) (j : Nat) :
    (insert_line ed).lines j =
      if j = ed.cursor_y then (ed.lines ed.cursor_y).take ed.cursor_x
      else if j = ed.cursor_y + 1 then (ed.lines ed.cursor_y).drop ed.cursor_x
      else if ed.cursor_y + 1 < j ∧ j ≤ ed.num_lines then ed.lines (j - 1)
      else ed.lines j := by
  have hcur : shift_down ed.lines ed.num_lines (ed.num_lines - (ed.cursor_y + 1)) ed.cursor_y
      = ed.lines ed.cursor_y := by
    rw [shift_down_apply _ _ _ _ (by omega), if_neg (by omega)]
  simp only [insert_line, if_pos hs, hcur]
  by_cases h1 : j = ed.cursor_y
  · subst h1
    rw [Function.update_same, if_pos rfl]
  · rw [Function.update_noteq h1, if_neg h1]
    by_cases h2 : j = ed.cursor_y + 1
    · subst h2
      rw [Function.update_same, if_pos rfl]
    · rw [Function.update_noteq h2, if_neg h2, shift_down_apply _ _ _ _ (by omega)]
      by_cases h3 : ed.cursor_y + 1 < j ∧ j ≤ ed.num_lines
      · rw [if_pos h3, if_pos (by omega)]
      · rw [if_neg h3, if_neg (by omega)]

theorem delete_char_merge_lines (ed : Editor) (hx : ed.cursor_x = 0) (hy : 0 < ed.cursor_y)
    (hfit : (ed.lines (ed.cursor_y - 1)).length + (ed.lines ed.cursor_y).length < MAX_COLS - 1)
    (j : Nat) :
    (delete_char ed).lines j =
      if ed.cursor_y ≤ j ∧ j + 1 < ed.num_lines then ed.lines (j + 1)
      else if j = ed.cursor_y - 1 then ed.lines (ed.cursor_y - 1) ++ ed.lines ed.cursor_y
      else ed.lines j := by
  have hx0 : ¬ 0 < ed.cursor_x := by omega
  simp only [delete_char, if_neg hx0, if_pos hy, if_pos hfit, shift_up_apply]
  by_cases h1 : ed.cursor_y ≤ j ∧ j + 1 < ed.num_lines
  · rw [if_pos h1, if_pos (by omega), Function.update_noteq (by omega)]
  · rw [if_neg h1, if_neg (by omega)]
    by_cases h2 : j = ed.cursor_y - 1
    · rw [if_pos h2, h2, Function.update_same]
    · rw [if_neg h2, Function.update_noteq h2]

theorem insert_line_refuses (ed : Editor) (h : MAX_LINES - 1 ≤ ed.num_lines) :
    insert_line ed = ed := by
  have h1 : ¬ ed.num_lines < MAX_LINES - 1 := by omega
  simp only [insert_line, if_neg h1]

theorem insert_char_line (ed : Editor) (ch : Nat) :
    (insert_char ed ch).lines ed.cursor_y =
      (ed.lines ed.cursor_y).take ed.cursor_x ++ ch :: (ed.lines ed.cursor_y).drop ed.cursor_x := by
  simp only [insert_char, Function.update_same]

/-! ## Buffer engine: split, merge, insertion -/

/-- C1: when `insert_line` performs the split at a valid cursor `(row, col)`, the new
`line[row]` is the prefix `[0, col)` and the new `line[row+1]` the suffix from `col` of the
old `line[row]` (so their concatenation is the old line), lines before `row` are unchanged,
every old line at an index `j > row` is found at `j + 1`, the line count grew by one and the
cursor is at `(row + 1, 0)`. -/
theorem insert_line_split (ed : Editor) (hv : valid_cursor ed)
    (hs : ed.num_lines < MAX_LINES - 1) :
    (insert_line ed).lines ed.cursor_y ++ (insert_line ed).lines (ed.cursor_y + 1)
        = ed.lines ed.cursor_y ∧
      (insert_line ed).lines ed.cursor_y = (ed.lines ed.cursor_y).take ed.cursor_x ∧
      (insert_line ed).lines (ed.cursor_y + 1) = (ed.lines ed.cursor_y).drop ed.cursor_x ∧
      (∀ j, j < ed.cursor_y → (insert_line ed).lines j = ed.lines j) ∧
      (∀ j, ed.cursor_y < j → j < ed.num_lines → (insert_line ed).lines (j + 1) = ed.lines j) ∧
      (insert_line ed).num_lines = ed.num_lines + 1 ∧
      (insert_line ed).cursor_y = ed.cursor_y + 1 ∧
      (insert_line ed).cursor_x = 0 := by
  have hy := hv.1
  have hrow : (insert_line ed).lines ed.cursor_y = (ed.lines ed.cursor_y).take ed.cursor_x := by
    rw [insert_line_lines ed hs hy, if_pos rfl]
  have hnext : (insert_line ed).lines (ed.cursor_y + 1)
      = (ed.lines ed.cursor_y).drop ed.cursor_x := by
    rw [insert_line_lines ed hs hy, if_neg (by omega), if_pos rfl]
  refine ⟨?_, hrow, hnext, ?_, ?_, ?_, ?_, ?_⟩
  · rw [hrow, hnext, List.take_append_drop]
  · intro j hj
    rw [insert_line_lines ed hs hy, if_neg (by omega), if_neg (by omega), if_neg (by omega)]
  · intro j hj hjn
    rw [insert_line_lines ed hs hy, if_neg (by omega), if_neg (by omega), if_pos (by omega)]
    rfl
  · simp only [insert_line, if_pos hs]
  · simp only [insert_line, if_pos hs]
  · simp only [insert_line, if_pos hs]

theorem insert_line_split_witness :
    valid_cursor sample3 ∧ sample3.num_lines < MAX_LINES - 1 ∧
      (insert_line sample3).lines 0 ++ (insert_line sample3).lines 1 = [104, 105] ∧
      (insert_line sample3).lines 3 = [122] :=
  have hv : valid_cursor sample3 := ⟨by decide, by decide⟩
  have hs : sample3.num_lines < MAX_LINES - 1 := by decide
  ⟨hv, hs, (insert_line_split sample3 hv hs).1,
    (insert_line_split sample3 hv hs).2.2.2.2.1 2 (by decide) (by decide)⟩

/-- C2 (as stated, refuted): the state with one line of 999 characters and the cursor at its
end has a valid cursor, and its line fills the `MAX_COLS`-byte buffer with its terminator;
there `insert_char` of the printable character `b` writes index 1000, behind the buffer, so
that `insert_char` followed by `delete_char` has no defined result: it does not give the
state back. -/
theorem full_line_insert_not_restored :
    valid_cursor full_line ∧ (full_line.lines full_line.cursor_y).length + 1 = MAX_COLS ∧
      insert_char_top full_line = MAX_COLS ∧
      insert_char_checked full_line 98 = none ∧
      (insert_char_checked full_line 98).map delete_char ≠ some full_line := by
  have hlen : (full_line.lines full_line.cursor_y).length = 999 := List.length_replicate 999 97
  have htop : insert_char_top full_line = MAX_COLS := by
    rw [insert_char_top, hlen]
    rfl
  have hnone : insert_char_checked full_line 98 = none := by
    rw [insert_char_checked, htop, if_neg (Nat.lt_irrefl _)]
  refine ⟨⟨by decide, ?_⟩, by rw [hlen]; rfl, htop, hnone, ?_⟩
  · show 999 ≤ (full_line.lines full_line.cursor_y).length
    rw [hlen]
  · rw [hnone]
    exact fun h => Option.noConfusion h

/-- C2 (amended): at a valid cursor on a line of fewer than `MAX_COLS - 1` = 999 characters,
`insert_char` of a printable character (codes 32..126, the only ones `main` passes) writes
inside the line's buffer, and followed by `delete_char` it gives back the state it started
from: every slot of the buffer, the line count and the cursor. -/
theorem insert_char_delete_char (ed : Editor) (hv : valid_cursor ed) (ch : Nat)
    (_hch : 32 ≤ ch ∧ ch ≤ 126) (hroom : (ed.lines ed.cursor_y).length < MAX_COLS - 1) :
    insert_char_checked ed ch = some (insert_char ed ch) ∧
      (insert_char_checked ed ch).map delete_char = some ed := by
  have hx := hv.2
  have hsome : insert_char_checked ed ch = some (insert_char ed ch) := by
    have htop : insert_char_top ed < MAX_COLS := by
      have hm : MAX_COLS = 1000 := rfl
      rw [hm] at hroom
      rw [hm, insert_char_top]
      omega
    rw [insert_char_checked, if_pos htop]
  have hpos : 0 < (insert_char ed ch).cursor_x := by simp [insert_char]
  have hline : ((ed.lines ed.cursor_y).take ed.cursor_x ++ ch :: (ed.lines ed.cursor_y).drop
      ed.cursor_x).take ed.cursor_x ++ ((ed.lines ed.cursor_y).take ed.cursor_x ++
      ch :: (ed.lines ed.cursor_y).drop ed.cursor_x).drop (ed.cursor_x + 1)
      = ed.lines ed.cursor_y := by
    have hlen : ((ed.lines ed.cursor_y).take ed.cursor_x).length = ed.cursor_x := by
      rw [List.length_take]; omega
    rw [List.take_left' hlen]
    have hd : ((ed.lines ed.cursor_y).take ed.cursor_x ++
        ch :: (ed.lines ed.cursor_y).drop ed.cursor_x).drop (ed.cursor_x + 1)
        = (ed.lines ed.cursor_y).drop ed.cursor_x := by
      rw [List.drop_append_eq_append_drop, hlen, List.drop_of_length_le (by omega)]
      simp
    rw [hd, List.take_append_drop]
  refine ⟨hsome, ?_⟩
  rw [hsome, Option.map_some', delete_char, if_pos hpos]
  simp only [insert_char, Function.update_same, Nat.add_sub_cancel, Function.update_idem, hline,
    Function.update_eq_self]

theorem insert_char_delete_char_witness :
    valid_cursor sample3 ∧ (sample3.lines sample3.cursor_y).length < MAX_COLS - 1 ∧
      (insert_char_checked sample3 97).map delete_char = some sample3 :=
  have hv : valid_cursor sample3 := ⟨by decide, by decide⟩
  ⟨hv, by decide, (insert_char_delete_char sample3 hv 97 (by decide) (by decide)).2⟩

/-- C5: with the cursor at column 0 of a row above 0, when `delete_char` performs the merge
(the length test passes): the new `line[row-1]` is the old `line[row-1]` followed by the old
`line[row]`, every old line at an index `j > row` is found at `j - 1`, lines before `row - 1`
are unchanged, the line count decreased by one and the cursor is at
`(row - 1, length of the old line[row-1])`. -/
theorem merge_joins_and_shifts (ed : Editor) (hx : ed.cursor_x = 0) (hy : 0 < ed.cursor_y)
    (hn : ed.cursor_y < ed.num_lines)
    (hfit : (ed.lines (ed.cursor_y - 1)).length + (ed.lines ed.cursor_y).length < MAX_COLS - 1) :
    (delete_char ed).lines (ed.cursor_y - 1)
        = ed.lines (ed.cursor_y - 1) ++ ed.lines ed.cursor_y ∧
      (∀ j, ed.cursor_y < j → j < ed.num_lines → (delete_char ed).lines (j - 1) = ed.lines j) ∧
      (∀ j, j < ed.cursor_y - 1 → (delete_char ed).lines j = ed.lines j) ∧
      (delete_char ed).num_lines + 1 = ed.num_lines ∧
      (delete_char ed).cursor_y = ed.cursor_y - 1 ∧
      (delete_char ed).cursor_x = (ed.lines (ed.cursor_y - 1)).length := by
  have hx0 : ¬ 0 < ed.cursor_x := by omega
  refine ⟨?_, ?_, ?_, ?_, ?_, ?_⟩
  · rw [delete_char_merge_lines ed hx hy hfit, if_neg (by omega), if_pos rfl]
  · intro j hj hjn
    rw [delete_char_merge_lines ed hx hy hfit, if_pos (by omega)]
    congr 1
    omega
  · intro j hj
    rw [delete_char_merge_lines ed hx hy hfit, if_neg (by omega), if_neg (by omega)]
  · simp only [delete_char, if_neg hx0, if_pos hy, if_pos hfit]
    omega
  · simp only [delete_char, if_neg hx0, if_pos hy, if_pos hfit]
  · simp only [delete_char, if_neg hx0, if_pos hy, if_pos hfit]

theorem merge_joins_and_shifts_witness :
    (delete_char sample3_bol).lines 0 = [104, 105, 121, 111] ∧
      (delete_char sample3_bol).lines 1 = [122] ∧
      (delete_char sample3_bol).num_lines + 1 = 3 :=
  have h := merge_joins_and_shifts sample3_bol rfl (by decide) (by decide) (by decide)
  ⟨h.1, h.2.1 2 (by decide) (by decide), h.2.2.2.1⟩

/-- C6: with the cursor at column 0 of a row above 0, when the combined length of
`line[row-1]` and `line[row]` fails the length test of the merge (it is `MAX_COLS - 1` or
more, which covers every combined length exceeding the column limit), `delete_char` returns
the state unchanged: every line, the line count and the cursor. -/
theorem merge_rejected_is_noop (ed : Editor) (hx : ed.cursor_x = 0) (hy : 0 < ed.cursor_y)
    (hbig : MAX_COLS - 1 ≤ (ed.lines (ed.cursor_y - 1)).length + (ed.lines ed.cursor_y).length) :
    delete_char ed = ed := by
  have hx0 : ¬ 0 < ed.cursor_x := by omega
  have hfit : ¬ (ed.lines (ed.cursor_y - 1)).length + (ed.lines ed.cursor_y).length
      < MAX_COLS - 1 := by omega
  simp only [delete_char, if_neg hx0, if_pos hy, if_neg hfit]

theorem merge_rejected_is_noop_witness :
    MAX_COLS < (wide2.lines 0).length + (wide2.lines 1).length ∧ delete_char wide2 = wide2 :=
  have hl : ∀ j, (wide2.lines j).length = 600 := fun _ => List.length_replicate 600 97
  ⟨by rw [hl, hl]; decide,
    merge_rejected_is_noop wide2 rfl (by decide) (by rw [hl, hl]; decide)⟩

/-- Merge followed by split gives back the whole state whenever the buffer holds at most
`MAX_LINES - 1` lines. -/
theorem merge_then_split_restores (ed : Editor) (hx : ed.cursor_x = 0) (hy : 0 < ed.cursor_y)
    (hn : ed.cursor_y < ed.num_lines)
    (hfit : (ed.lines (ed.cursor_y - 1)).length + (ed.lines ed.cursor_y).length < MAX_COLS - 1)
    (hlim : ed.num_lines ≤ MAX_LINES - 1) :
    insert_line (delete_char ed) = ed := by
  have hx0 : ¬ 0 < ed.cursor_x := by omega
  have hnum : (delete_char ed).num_lines = ed.num_lines - 1 := by
    simp only [delete_char, if_neg hx0, if_pos hy, if_pos hfit]
  have hcy : (delete_char ed).cursor_y = ed.cursor_y - 1 := by
    simp only [delete_char, if_neg hx0, if_pos hy, if_pos hfit]
  have hcx : (delete_char ed).cursor_x = (ed.lines (ed.cursor_y - 1)).length := by
    simp only [delete_char, if_neg hx0, if_pos hy, if_pos hfit]
  have hs : (delete_char ed).num_lines < MAX_LINES - 1 := by
    rw [hnum]; simp only [MAX_LINES] at hlim ⊢; omega
  have hyd : (delete_char ed).cursor_y < (delete_char ed).num_lines := by
    rw [hnum, hcy]; omega
  have hmerged : (delete_char ed).lines (ed.cursor_y - 1)
      = ed.lines (ed.cursor_y - 1) ++ ed.lines ed.cursor_y := by
    rw [delete_char_merge_lines ed hx hy hfit, if_neg (by omega), if_pos rfl]
  have hlines : (insert_line (delete_char ed)).lines = ed.lines := by
    funext j
    rw [insert_line_lines _ hs hyd, hcy, hcx, hnum, hmerged]
    by_cases h1 : j = ed.cursor_y - 1
    · rw [if_pos h1, h1, List.take_left' rfl]
    · rw [if_neg h1]
      by_cases h2 : j = ed.cursor_y - 1 + 1
      · rw [if_pos h2, List.drop_left' rfl, h2]
        congr 1
        omega
      · rw [if_neg h2]
        by_cases h3 : ed.cursor_y - 1 + 1 < j ∧ j ≤ ed.num_lines - 1
        · rw [if_pos h3, delete_char_merge_lines ed hx hy hfit, if_pos (by omega)]
          congr 1
          omega
        · rw [if_neg h3, delete_char_merge_lines ed hx hy hfit, if_neg (by omega), if_neg h1]
  have hnum2 : (insert_line (delete_char ed)).num_lines = ed.num_lines := by
    simp only [insert_line, if_pos hs]
    rw [hnum]; omega
  have hcy2 : (insert_line (delete_char ed)).cursor_y = ed.cursor_y := by
    simp only [insert_line, if_pos hs]
    rw [hcy]; omega
  have hcx2 : (insert_line (delete_char ed)).cursor_x = ed.cursor_x := by
    simp only [insert_line, if_pos hs, hx]
  cases ed with
  | mk l n x y =>
    cases hI : insert_line (delete_char (Editor.mk l n x y)) with
    | mk l2 n2 x2 y2 =>
      rw [hI] at hlines hnum2 hcy2 hcx2
      simp only at hlines hnum2 hcy2 hcx2
      rw [hlines, hnum2, hcy2, hcx2]

/-- C3: in the buffer of 1000 empty lines with the cursor at the start of the second line,
`delete_char` performs the merge (999 lines remain, cursor at the origin) and the following
`insert_line` returns that state unchanged, so the original 1000 lines are not restored. -/
theorem merge_then_split_full_buffer :
    full_buffer.num_lines = MAX_LINES ∧
      (delete_char full_buffer).num_lines = 999 ∧
      (delete_char full_buffer).cursor_y = 0 ∧
      insert_line (delete_char full_buffer) = delete_char full_buffer ∧
      (insert_line (delete_char full_buffer)).num_lines ≠ full_buffer.num_lines := by
  have hn : (delete_char full_buffer).num_lines = 999 := by
    simp [delete_char, full_buffer, MAX_COLS]
  have hr : insert_line (delete_char full_buffer) = delete_char full_buffer :=
    insert_line_refuses _ (by rw [hn]; decide)
  refine ⟨rfl, hn, by simp [delete_char, full_buffer, MAX_COLS], hr, ?_⟩
  rw [hr, hn]
  decide

/-- C4: on the line of 999 characters with the cursor at its end, `insert_char` stores the
character all the same: the line changes and its content grows to `MAX_COLS` characters, one
more than the `MAX_COLS`-byte allocation holds with its terminator. -/
theorem insert_char_full_line :
    (full_line.lines 0).length = MAX_COLS - 1 ∧
      ((insert_char full_line 98).lines 0).length = MAX_COLS ∧
      (insert_char full_line 98).lines 0 = full_line.lines 0 ++ [98] ∧
      (insert_char full_line 98).lines 0 ≠ full_line.lines 0 := by
  have h := insert_char_line full_line 98
  have hc : full_line.cursor_y = 0 := rfl
  rw [hc] at h
  have hl : full_line.lines 0 = List.replicate 999 97 := rfl
  have hx : full_line.cursor_x = 999 := rfl
  rw [hl, hx] at h
  have hlen : (List.replicate 999 97).length = 999 := List.length_replicate 999 97
  have h2 : (insert_char full_line 98).lines 0 = List.replicate 999 97 ++ [98] := by
    rw [h, List.take_of_length_le (by rw [hlen]), List.drop_of_length_le (by rw [hlen])]
  refine ⟨by rw [hl, hlen]; rfl, ?_, by rw [h2, hl], ?_⟩
  · rw [h2, List.length_append, hlen]
    rfl
  · intro hne
    have hcontra := congrArg List.length hne
    rw [h2, hl, List.length_append, hlen] at hcontra
    exact absurd hcontra (by decide)

/-- C7: with 999 lines, fewer than `MAX_LINES`, `insert_line` returns the state unchanged:
the split is refused although the buffer is not yet at the maximum of 1000 lines. -/
theorem insert_line_refused_at_999 :
    buffer999.num_lines < MAX_LINES ∧ insert_line buffer999 = buffer999 ∧
      (insert_line buffer999).num_lines = 999 :=
  have h : insert_line buffer999 = buffer999 := insert_line_refuses buffer999 (by decide)
  ⟨by decide, h, by rw [h]; rfl⟩

/-! ## The cursor invariant -/

theorem well_formed_insert_char (ed : Editor) (hw : well_formed ed) (ch : Nat)
    (hroom : (ed.lines ed.cursor_y).length < MAX_COLS - 1) :
    insert_char_checked ed ch = some (insert_char ed ch) ∧ well_formed (insert_char ed ch) := by
  obtain ⟨h1, h2, h3⟩ := hw
  have htop : insert_char_top ed < MAX_COLS := by
    have hm : MAX_COLS = 1000 := rfl
    rw [hm] at hroom
    rw [hm, insert_char_top]
    omega
  refine ⟨by rw [insert_char_checked, if_pos htop], h1, h2, ?_⟩
  show ed.cursor_x + 1 ≤ ((insert_char ed ch).lines ed.cursor_y).length
  rw [insert_char_line]
  simp only [List.length_append, List.length_cons, List.length_take, List.length_drop]
  omega

theorem well_formed_delete_char (ed : Editor) (hw : well_formed ed) :
    well_formed (delete_char ed) := by
  obtain ⟨h1, h2, h3⟩ := hw
  by_cases hx : 0 < ed.cursor_x
  · simp only [delete_char, if_pos hx]
    refine ⟨h1, h2, ?_⟩
    simp only [Function.update_same, List.length_append, List.length_take, List.length_drop]
    omega
  · by_cases hy : 0 < ed.cursor_y
    · by_cases hfit : (ed.lines (ed.cursor_y - 1)).length + (ed.lines ed.cursor_y).length
          < MAX_COLS - 1
      · have hl := delete_char_merge_lines ed (by omega) hy hfit (ed.cursor_y - 1)
        rw [if_neg (by omega), if_pos rfl] at hl
        have hn : (delete_char ed).num_lines = ed.num_lines - 1 := by
          simp only [delete_char, if_neg hx, if_pos hy, if_pos hfit]
        have hcy : (delete_char ed).cursor_y = ed.cursor_y - 1 := by
          simp only [delete_char, if_neg hx, if_pos hy, if_pos hfit]
        have hcx : (delete_char ed).cursor_x = (ed.lines (ed.cursor_y - 1)).length := by
          simp only [delete_char, if_neg hx, if_pos hy, if_pos hfit]
        refine ⟨by rw [hn]; omega, by rw [hn, hcy]; omega, ?_⟩
        rw [hcx, hcy, hl, List.length_append]
        omega
      · simp only [delete_char, if_neg hx, if_pos hy, if_neg hfit]
        exact ⟨h1, h2, h3⟩
    · simp only [delete_char, if_neg hx, if_neg hy]
      exact ⟨h1, h2, h3⟩

theorem well_formed_insert_line (ed : Editor) (hw : well_formed ed) :
    well_formed (insert_line ed) := by
  obtain ⟨h1, h2, h3⟩ := hw
  by_cases hs : ed.num_lines < MAX_LINES - 1
  · simp only [insert_line, if_pos hs]
    exact ⟨by show 1 ≤ ed.num_lines + 1; omega, by show ed.cursor_y + 1 < ed.num_lines + 1; omega,
      Nat.zero_le _⟩
  · simp only [insert_line, if_neg hs]
    exact ⟨h1, h2, h3⟩

theorem well_formed_move_up (ed : Editor) (hw : well_formed ed) : well_formed (move_up ed) := by
  obtain ⟨h1, h2, h3⟩ := hw
  by_cases hy : 0 < ed.cursor_y
  · simp only [move_up, if_pos hy]
    refine ⟨h1, by show ed.cursor_y - 1 < ed.num_lines; omega, ?_⟩
    show (if (ed.lines (ed.cursor_y - 1)).length < ed.cursor_x
      then (ed.lines (ed.cursor_y - 1)).length else ed.cursor_x)
        ≤ (ed.lines (ed.cursor_y - 1)).length
    split <;> omega
  · simp only [move_up, if_neg hy]
    exact ⟨h1, h2, h3⟩

theorem well_formed_move_down (ed : Editor) (hw : well_formed ed) :
    well_formed (move_down ed) := by
  obtain ⟨h1, h2, h3⟩ := hw
  by_cases hy : ed.cursor_y < ed.num_lines - 1
  · simp only [move_down, if_pos hy]
    refine ⟨h1, by show ed.cursor_y + 1 < ed.num_lines; omega, ?_⟩
    show (if (ed.lines (ed.cursor_y + 1)).length < ed.cursor_x
      then (ed.lines (ed.cursor_y + 1)).length else ed.cursor_x)
        ≤ (ed.lines (ed.cursor_y + 1)).length
    split <;> omega
  · simp only [move_down, if_neg hy]
    exact ⟨h1, h2, h3⟩

theorem well_formed_move_left (ed : Editor) (hw : well_formed ed) :
    well_formed (move_left ed) := by
  obtain ⟨h1, h2, h3⟩ := hw
  by_cases hx : 0 < ed.cursor_x
  · simp only [move_left, if_pos hx]
    exact ⟨h1, h2, by show ed.cursor_x - 1 ≤ (ed.lines ed.cursor_y).length; omega⟩
  · simp only [move_left, if_neg hx]
    exact ⟨h1, h2, h3⟩

theorem well_formed_move_right (ed : Editor) (hw : well_formed ed) :
    well_formed (move_right ed) := by
  obtain ⟨h1, h2, h3⟩ := hw
  by_cases hx : ed.cursor_x < (ed.lines ed.cursor_y).length
  · simp only [move_right, if_pos hx]
    exact ⟨h1, h2, by show ed.cursor_x + 1 ≤ (ed.lines ed.cursor_y).length; omega⟩
  · simp only [move_right, if_neg hx]
    exact ⟨h1, h2, h3⟩

/-- The predicate `num_lines ≥ 1`, `cursor_y < num_lines`, `cursor_x ≤ length of
lines[cursor_y]` holds in the initial state and, from any state where it holds, after
`insert_char` of a printable character on a line of fewer than `MAX_COLS - 1` = 999
characters (where `insert_char` writes inside the line's buffer), after `delete_char`,
`insert_line` and each of the four cursor handlers; when the up (down) handler moves the
cursor, the row decreases (increases) by one and the column becomes the minimum of the old
column and the length of the line moved onto. -/
theorem well_formed_steps (ed : Editor) (hw : well_formed ed) (ch : Nat)
    (_hch : 32 ≤ ch ∧ ch ≤ 126) :
    well_formed init_editor ∧
      ((ed.lines ed.cursor_y).length < MAX_COLS - 1 →
        insert_char_checked ed ch = some (insert_char ed ch) ∧
          well_formed (insert_char ed ch)) ∧
      well_formed (delete_char ed) ∧
      well_formed (insert_line ed) ∧ well_formed (move_up ed) ∧ well_formed (move_down ed) ∧
      well_formed (move_left ed) ∧ well_formed (move_right ed) ∧
      (0 < ed.cursor_y → (move_up ed).cursor_y = ed.cursor_y - 1 ∧
        (move_up ed).cursor_x = min ed.cursor_x (ed.lines (ed.cursor_y - 1)).length) ∧
      (ed.cursor_y + 1 < ed.num_lines → (move_down ed).cursor_y = ed.cursor_y + 1 ∧
        (move_down ed).cursor_x = min ed.cursor_x (ed.lines (ed.cursor_y + 1)).length) := by
  refine ⟨⟨by decide, by decide, by decide⟩, well_formed_insert_char ed hw ch,
    well_formed_delete_char ed hw, well_formed_insert_line ed hw, well_formed_move_up ed hw,
    well_formed_move_down ed hw, well_formed_move_left ed hw, well_formed_move_right ed hw,
    ?_, ?_⟩
  · intro hy
    simp only [move_up, if_pos hy, true_and]
    split
    · rw [Nat.min_eq_right (by omega)]
    · rw [Nat.min_eq_left (by omega)]
  · intro hy
    have hy2 : ed.cursor_y < ed.num_lines - 1 := by omega
    simp only [move_down, if_pos hy2, true_and]
    split
    · rw [Nat.min_eq_right (by omega)]
    · rw [Nat.min_eq_left (by omega)]

theorem well_formed_steps_witness :
    well_formed sample_hello ∧ well_formed (insert_char sample_hello 97) ∧
      well_formed (move_down sample_hello) ∧
      (move_down sample_hello).cursor_y = 1 ∧ (move_down sample_hello).cursor_x = 2 :=
  have hw : well_formed sample_hello := ⟨by decide, by decide, by decide⟩
  have h := well_formed_steps sample_hello hw 97 (by decide)
  ⟨hw, (h.2.1 (by decide)).2, h.2.2.2.2.2.1, (h.2.2.2.2.2.2.2.2.2 (by decide)).1,
    (h.2.2.2.2.2.2.2.2.2 (by decide)).2⟩

/-- C8: the predicate holds in the state with one line of 999 characters and the cursor at
its end, a line that fills its `MAX_COLS`-byte buffer with its terminator; there the step
`insert_char` has no defined result: it has no capacity test, `memmove` writes index 1000,
behind the buffer, and the string it leaves, of 1000 characters, does not fit the buffer
with its terminator. -/
theorem insert_overruns_full_line :
    well_formed full_line ∧ (full_line.lines full_line.cursor_y).length + 1 = MAX_COLS ∧
      insert_char_top full_line = MAX_COLS ∧
      insert_char_checked full_line 98 = none ∧
      MAX_COLS < ((insert_char full_line 98).lines full_line.cursor_y).length + 1 := by
  have hlen : (full_line.lines full_line.cursor_y).length = 999 := List.length_replicate 999 97
  have htop : insert_char_top full_line = MAX_COLS := by
    rw [insert_char_top, hlen]
    rfl
  have hnone : insert_char_checked full_line 98 = none := by
    rw [insert_char_checked, htop, if_neg (Nat.lt_irrefl _)]
  refine ⟨⟨by decide, by decide, ?_⟩, by rw [hlen]; rfl, htop, hnone, ?_⟩
  · show 999 ≤ (full_line.lines full_line.cursor_y).length
    rw [hlen]
  · rw [insert_char_line]
    simp only [List.length_append, List.length_cons, List.length_take, List.length_drop, hlen]
    decide

/-! ## Persistence: load, save, load -/

theorem buffer_lines_push (ed : Editor) (line : Line) :
    buffer_lines { ed with lines := Function.update ed.lines ed.num_lines line
                           num_lines := ed.num_lines + 1 }
      = buffer_lines ed ++ [line] := by
  simp only [buffer_lines, List.range_succ, List.map_append, List.map_cons, List.map_nil,
    Function.update_same]
  congr 1
  apply List.map_congr_left
  intro j hj
  rw [List.mem_range] at hj
  rw [Function.update_noteq (by omega)]

theorem load_lines_nil (k : Nat) : load_lines k [] = [] := by
  cases k <;> rfl

theorem buffer_lines_load_loop (fuel : Nat) (f : List Nat) (ed : Editor) :
    buffer_lines (load_loop fuel f ed)
      = buffer_lines ed ++ load_lines (min fuel (MAX_LINES - ed.num_lines)) f := by
  induction fuel generalizing f ed with
  | zero => simp [load_loop, load_lines]
  | succ fuel ih =>
    cases f with
    | nil => simp [load_loop, load_lines_nil]
    | cons c s =>
      by_cases hn : ed.num_lines < MAX_LINES
      · have hmin : min (fuel + 1) (MAX_LINES - ed.num_lines)
            = min fuel (MAX_LINES - (ed.num_lines + 1)) + 1 := by omega
        rw [load_loop, if_pos hn, hmin, load_lines]
        simp only
        rw [ih, buffer_lines_push, List.append_assoc]
        rfl
      · have hmin : min (fuel + 1) (MAX_LINES - ed.num_lines) = 0 := by omega
        rw [load_loop, if_neg hn, hmin, load_lines, List.append_nil]

/-- More fuel than `MAX_LINES` passes does not change what the loading loop builds. -/
theorem load_loop_fuel (fuel : Nat) (hfuel : MAX_LINES ≤ fuel) (f : List Nat) (ed : Editor) :
    buffer_lines (load_loop fuel f ed) = buffer_lines (load_loop MAX_LINES f ed) := by
  rw [buffer_lines_load_loop, buffer_lines_load_loop,
    Nat.min_eq_right (by omega), Nat.min_eq_right (by omega)]

theorem buffer_lines_length (ed : Editor) : (buffer_lines ed).length = ed.num_lines := by
  simp [buffer_lines]

/-- The buffer `load_file` builds from a file that opens: the lines of the loop, or one
empty line when the loop stored none. -/
theorem buffer_lines_load_file (f : List Nat) (ed : Editor) :
    buffer_lines (load_file (some f) ed)
      = if load_lines MAX_LINES f = [] then [[]] else load_lines MAX_LINES f := by
  have h := buffer_lines_load_loop MAX_LINES f { ed with num_lines := 0 }
  have h0 : buffer_lines { ed with num_lines := 0 } = [] := rfl
  have hm : min MAX_LINES (MAX_LINES - ({ ed with num_lines := 0 } : Editor).num_lines)
      = MAX_LINES := by
    show min MAX_LINES (MAX_LINES - 0) = MAX_LINES
    omega
  rw [h0, hm, List.nil_append] at h
  have hlen := buffer_lines_length (load_loop MAX_LINES f { ed with num_lines := 0 })
  rw [h] at hlen
  simp only [load_file]
  by_cases he : load_lines MAX_LINES f = []
  · have hz : (load_loop MAX_LINES f { ed with num_lines := 0 }).num_lines = 0 := by
      rw [← hlen, he]
      rfl
    rw [if_pos hz, if_pos he]
    simp [buffer_lines, List.range_succ]
  · have hne : ¬ (load_loop MAX_LINES f { ed with num_lines := 0 }).num_lines = 0 := by
      rw [← hlen]
      intro h0
      exact he (List.length_eq_zero.mp h0)
    rw [if_neg hne, if_neg he, h]

theorem fgets_read_line (l rest : List Nat) (n : Nat) (hl : ∀ c ∈ l, c ≠ 10)
    (hn : l.length < n) : fgets_read n (l ++ 10 :: rest) = (l ++ [10], rest) := by
  induction l generalizing n with
  | nil =>
    cases n with
    | zero => simp at hn
    | succ m => simp [fgets_read]
  | cons a t ih =>
    cases n with
    | zero => simp at hn
    | succ m =>
      have ha : a ≠ 10 := hl a (List.mem_cons_self a t)
      have ht : ∀ c ∈ t, c ≠ 10 := fun c hc => hl c (List.mem_cons_of_mem a hc)
      have hm : t.length < m := by
        simp only [List.length_cons] at hn
        omega
      rw [List.cons_append, fgets_read, if_neg ha, ih m ht hm]
      rfl

theorem fgets_read_full (l rest : List Nat) (hl : ∀ c ∈ l, c ≠ 10) :
    fgets_read l.length (l ++ rest) = (l, rest) := by
  induction l with
  | nil => simp [fgets_read]
  | cons a t ih =>
    have ha : a ≠ 10 := hl a (List.mem_cons_self a t)
    have ht : ∀ c ∈ t, c ≠ 10 := fun c hc => hl c (List.mem_cons_of_mem a hc)
    rw [List.cons_append, List.length_cons, fgets_read, if_neg ha, ih ht]

theorem takeWhile_append_stop (p : Nat → Bool) (l rest : List Nat) (x : Nat)
    (hl : ∀ c ∈ l, p c = true) (hx : p x = false) :
    (l ++ x :: rest).takeWhile p = l := by
  induction l with
  | nil => simp [List.takeWhile, hx]
  | cons a t ih =>
    have ha : p a = true := hl a (List.mem_cons_self a t)
    have ht : ∀ c ∈ t, p c = true := fun c hc => hl c (List.mem_cons_of_mem a hc)
    rw [List.cons_append, List.takeWhile_cons, ha, ih ht]
    rfl

theorem takeWhile_all (p : Nat → Bool) (l : List Nat) (hl : ∀ c ∈ l, p c = true) :
    l.takeWhile p = l := by
  induction l with
  | nil => rfl
  | cons a t ih =>
    have ha : p a = true := hl a (List.mem_cons_self a t)
    have ht : ∀ c ∈ t, p c = true := fun c hc => hl c (List.mem_cons_of_mem a hc)
    rw [List.takeWhile_cons, ha, ih ht]
    rfl

theorem strip_c_string_line (l : Line) (hl : clean l) :
    strip_newline (c_string (l ++ [10])) = l := by
  have h0 : c_string (l ++ [10]) = l ++ [10] := by
    apply takeWhile_all
    intro c hc
    rw [List.mem_append, List.mem_singleton] at hc
    rcases hc with hc | hc
    · simpa using (hl c hc).2
    · subst hc
      decide
  rw [h0]
  apply takeWhile_append_stop
  · intro c hc
    simpa using (hl c hc).1
  · decide

theorem strip_c_string_clean (l : Line) (hl : clean l) : strip_newline (c_string l) = l := by
  have h0 : c_string l = l := by
    apply takeWhile_all
    intro c hc
    simpa using (hl c hc).2
  rw [h0]
  apply takeWhile_all
  intro c hc
  simpa using (hl c hc).1

theorem strip_c_string_is_clean (bytes : List Nat) : clean (strip_newline (c_string bytes)) := by
  intro c hc
  have h1 := List.mem_takeWhile_imp hc
  have h2 := List.mem_takeWhile_imp (List.takeWhile_sublist _ |>.subset hc)
  exact ⟨by simpa using h1, by simpa using h2⟩

theorem load_lines_succ (k : Nat) (f : List Nat) (hf : f ≠ []) :
    load_lines (k + 1) f = strip_newline (c_string (fgets_read (MAX_COLS - 1) f).1)
      :: load_lines k (fgets_read (MAX_COLS - 1) f).2 := by
  cases f with
  | nil => exact absurd rfl hf
  | cons c s => rfl

theorem load_lines_clean (k : Nat) (f : List Nat) : ∀ l ∈ load_lines k f, clean l := by
  induction k generalizing f with
  | zero => intro l hl; simp [load_lines] at hl
  | succ k ih =>
    cases f with
    | nil => intro l hl; simp [load_lines] at hl
    | cons c s =>
      intro l hl
      rw [load_lines, List.mem_cons] at hl
      rcases hl with hl | hl
      · rw [hl]
        exact strip_c_string_is_clean _
      · exact ih _ l hl

theorem load_lines_length_le (k : Nat) (f : List Nat) : (load_lines k f).length ≤ k := by
  induction k generalizing f with
  | zero => simp [load_lines]
  | succ k ih =>
    cases f with
    | nil => simp [load_lines]
    | cons c s =>
      rw [load_lines, List.length_cons]
      exact Nat.succ_le_succ (ih _)

/-- Reading back what `save_file` writes for clean lines shorter than a read chunk. -/
theorem load_lines_saved (L : List Line) (k : Nat) (hk : L.length ≤ k)
    (hL : ∀ l ∈ L, clean l ∧ l.length < MAX_COLS - 1) :
    load_lines k (L.flatMap (fun line => line ++ [10])) = L := by
  induction L generalizing k with
  | nil => simp [load_lines_nil]
  | cons l t ih =>
    cases k with
    | zero => simp at hk
    | succ k =>
      have hl := hL l (List.mem_cons_self l t)
      have ht : ∀ x ∈ t, clean x ∧ x.length < MAX_COLS - 1 :=
        fun x hx => hL x (List.mem_cons_of_mem l hx)
      have hk2 : t.length ≤ k := by
        simp only [List.length_cons] at hk
        omega
      have hbytes : (l :: t).flatMap (fun line => line ++ [10])
          = l ++ 10 :: t.flatMap (fun line => line ++ [10]) := by
        simp [List.flatMap_cons]
      have hne : l ++ 10 :: t.flatMap (fun line => line ++ [10]) ≠ [] := by simp
      rw [hbytes, load_lines_succ _ _ hne,
        fgets_read_line l _ _ (fun c hc => (hl.1 c hc).1) hl.2]
      simp only
      rw [strip_c_string_line l hl.1, ih k hk2 ht]

theorem load_lines_newline (k : Nat) (rest : List Nat) :
    load_lines (k + 1) (10 :: rest) = [] :: load_lines k rest := rfl

theorem load_lines_chunk (k : Nat) (l rest : List Nat) (hl : clean l)
    (hlen : l.length = MAX_COLS - 1) :
    load_lines (k + 1) (l ++ rest) = l :: load_lines k rest := by
  have hne : l ++ rest ≠ [] := by
    intro h
    have h2 := congrArg List.length h
    rw [List.length_append, hlen] at h2
    simp [MAX_COLS] at h2
  rw [load_lines_succ _ _ hne, ← hlen, fgets_read_full l rest (fun c hc => (hl c hc).1)]
  simp only
  rw [strip_c_string_clean l hl]

/-- C9 (as stated, refuted): the file of one 999-character line and its newline is within
1000 lines and 1000 columns; the first load yields that line followed by an empty line (the
newline is read as a chunk of its own), the save writes both, and the second load yields
three lines. -/
theorem long_line_breaks_round_trip :
    long_file = List.replicate 999 97 ++ [10] ∧ (List.replicate 999 97).length < MAX_COLS ∧
      buffer_lines (load_file (some long_file) init_editor) = [List.replicate 999 97, []] ∧
      buffer_lines (load_file (some (save_file (load_file (some long_file) init_editor)))
          (load_file (some long_file) init_editor)) = [List.replicate 999 97, [], []] ∧
      buffer_lines (load_file (some (save_file (load_file (some long_file) init_editor)))
          (load_file (some long_file) init_editor))
        ≠ buffer_lines (load_file (some long_file) init_editor) := by
  have hlen : (List.replicate 999 97).length = MAX_COLS - 1 := List.length_replicate 999 97
  have hclean : clean (List.replicate 999 97) := by
    intro c hc
    rw [List.eq_of_mem_replicate hc]
    decide
  have h1 : load_lines MAX_LINES long_file = [List.replicate 999 97, []] := by
    show load_lines (999 + 1) (List.replicate 999 97 ++ [10]) = _
    rw [load_lines_chunk _ _ _ hclean hlen]
    rfl
  have hb1 : buffer_lines (load_file (some long_file) init_editor)
      = [List.replicate 999 97, []] := by
    rw [buffer_lines_load_file, h1, if_neg (List.cons_ne_nil _ _)]
  have hflat : ∀ a : Line, [a, []].flatMap (fun line => line ++ [10]) = a ++ [10, 10] := by
    intro a
    simp [List.flatMap_cons]
  have hsave : save_file (load_file (some long_file) init_editor)
      = List.replicate 999 97 ++ [10, 10] := by
    rw [save_file, hb1, hflat]
  have h2 : load_lines MAX_LINES (List.replicate 999 97 ++ [10, 10])
      = [List.replicate 999 97, [], []] := by
    show load_lines (999 + 1) (List.replicate 999 97 ++ [10, 10]) = _
    rw [load_lines_chunk _ _ _ hclean hlen]
    rfl
  have hb2 : buffer_lines (load_file (some (save_file (load_file (some long_file) init_editor)))
      (load_file (some long_file) init_editor)) = [List.replicate 999 97, [], []] := by
    rw [buffer_lines_load_file, hsave, h2, if_neg (List.cons_ne_nil _ _)]
  refine ⟨rfl, ?_, hb1, hb2, ?_⟩
  · rw [List.length_replicate]
    decide
  · rw [hb1, hb2]
    intro h
    have h3 := congrArg List.length h
    exact absurd h3 (by decide)

/-- Whenever the first load produces no line as long as a full read chunk, saving the loaded
buffer and loading the saved file yields the same sequence of lines. -/
theorem round_trip_of_short_buffer (f : List Nat) (ed : Editor)
    (hshort : ∀ l ∈ buffer_lines (load_file (some f) ed), l.length < MAX_COLS - 1) :
    buffer_lines (load_file (some (save_file (load_file (some f) ed))) (load_file (some f) ed))
      = buffer_lines (load_file (some f) ed) := by
  have hL := buffer_lines_load_file f ed
  have hclean : ∀ l ∈ buffer_lines (load_file (some f) ed), clean l := by
    intro l hl
    rw [hL] at hl
    by_cases he : load_lines MAX_LINES f = []
    · rw [if_pos he, List.mem_singleton] at hl
      rw [hl]
      intro c hc
      simp at hc
    · rw [if_neg he] at hl
      exact load_lines_clean _ _ l hl
  have hlen : (buffer_lines (load_file (some f) ed)).length ≤ MAX_LINES := by
    rw [hL]
    by_cases he : load_lines MAX_LINES f = []
    · rw [if_pos he]
      simp [MAX_LINES]
    · rw [if_neg he]
      exact load_lines_length_le _ _
  have hne : buffer_lines (load_file (some f) ed) ≠ [] := by
    rw [hL]
    by_cases he : load_lines MAX_LINES f = []
    · rw [if_pos he]
      simp
    · rw [if_neg he]
      exact he
  have hback := load_lines_saved (buffer_lines (load_file (some f) ed)) MAX_LINES hlen
    (fun l hl => ⟨hclean l hl, hshort l hl⟩)
  rw [buffer_lines_load_file (save_file (load_file (some f) ed)), save_file, hback, if_neg hne]

theorem short_lines_nil (run : Nat) : short_lines [] run = true ↔ run < MAX_COLS - 1 := by
  simp [short_lines]

theorem short_lines_newline (s : List Nat) (run : Nat) :
    short_lines (10 :: s) run = true ↔ run < MAX_COLS - 1 ∧ short_lines s 0 = true := by
  simp [short_lines]

theorem short_lines_other (c : Nat) (s : List Nat) (run : Nat) (hc : c ≠ 10) :
    short_lines (c :: s) run = short_lines s (run + 1) := by
  simp [short_lines, hc]

theorem short_lines_run (f : List Nat) (run : Nat) (h : short_lines f run = true) :
    run < MAX_COLS - 1 := by
  induction f generalizing run with
  | nil => exact (short_lines_nil run).mp h
  | cons c s ih =>
    by_cases hc : c = 10
    · subst hc
      exact ((short_lines_newline s run).mp h).1
    · rw [short_lines_other c s run hc] at h
      have := ih (run + 1) h
      omega

theorem strip_c_string_cons_le (c : Nat) (t : List Nat) :
    (strip_newline (c_string (c :: t))).length ≤ (strip_newline (c_string t)).length + 1 := by
  by_cases h0 : c = 0
  · subst h0
    simp [c_string, strip_newline]
  · by_cases h10 : c = 10
    · subst h10
      simp [c_string, strip_newline]
    · simp [c_string, strip_newline, List.takeWhile_cons, h0, h10]

theorem fgets_read_short (n : Nat) (f : List Nat) (run : Nat) (h : short_lines f run = true) :
    (strip_newline (c_string (fgets_read n f).1)).length + run < MAX_COLS - 1 ∧
      (MAX_COLS - 1 ≤ run + n → short_lines (fgets_read n f).2 0 = true) := by
  induction n generalizing f run with
  | zero =>
    have hr := short_lines_run f run h
    refine ⟨?_, fun hle => absurd hle (by omega)⟩
    simp only [fgets_read, c_string, strip_newline, List.takeWhile_nil, List.length_nil]
    omega
  | succ n ih =>
    cases f with
    | nil =>
      have hr := short_lines_run [] run h
      refine ⟨?_, fun _ => by simp [fgets_read, short_lines, MAX_COLS]⟩
      simp only [fgets_read, c_string, strip_newline, List.takeWhile_nil, List.length_nil]
      omega
    | cons c s =>
      by_cases hc : c = 10
      · subst hc
        have h2 := (short_lines_newline s run).mp h
        refine ⟨?_, fun _ => by simpa [fgets_read] using h2.2⟩
        simp [fgets_read, c_string, strip_newline]
        exact h2.1
      · rw [short_lines_other c s run hc] at h
        have hi := ih s (run + 1) h
        rw [fgets_read, if_neg hc]
        refine ⟨?_, fun hle => hi.2 (by omega)⟩
        have hle := strip_c_string_cons_le c (fgets_read n s).1
        show (strip_newline (c_string (c :: (fgets_read n s).1))).length + run < MAX_COLS - 1
        omega

theorem load_lines_short (k : Nat) (f : List Nat) (h : short_lines f 0 = true) :
    ∀ l ∈ load_lines k f, l.length < MAX_COLS - 1 := by
  induction k generalizing f with
  | zero => intro l hl; simp [load_lines] at hl
  | succ k ih =>
    cases f with
    | nil => intro l hl; simp [load_lines] at hl
    | cons c s =>
      intro l hl
      have hr := fgets_read_short (MAX_COLS - 1) (c :: s) 0 h
      rw [load_lines, List.mem_cons] at hl
      rcases hl with hl | hl
      · rw [hl]
        exact hr.1
      · exact ih _ (hr.2 (by omega)) l hl

/-- C9 (amended): for every file whose lines all have at most 998 characters (fewer than
`MAX_COLS - 1`, so that a line and its newline fit one read chunk), whatever the number of
lines, the buffer obtained by load, save and load again has the same sequence of lines as
the buffer obtained by the first load. -/
theorem load_save_load (f : List Nat) (ed : Editor) (hshort : short_lines f 0 = true) :
    buffer_lines (load_file (some (save_file (load_file (some f) ed))) (load_file (some f) ed))
      = buffer_lines (load_file (some f) ed) := by
  apply round_trip_of_short_buffer
  intro l hl
  rw [buffer_lines_load_file] at hl
  by_cases he : load_lines MAX_LINES f = []
  · rw [if_pos he, List.mem_singleton] at hl
    rw [hl]
    decide
  · rw [if_neg he] at hl
    exact load_lines_short _ _ hshort l hl

theorem load_save_load_witness :
    short_lines small_file 0 = true ∧
      buffer_lines (load_file (some small_file) init_editor) = [[104, 105], [121, 111]] ∧
      buffer_lines (load_file (some (save_file (load_file (some small_file) init_editor)))
          (load_file (some small_file) init_editor))
        = buffer_lines (load_file (some small_file) init_editor) := by
  have hs : short_lines small_file 0 = true := by decide
  have hb : buffer_lines (load_file (some small_file) init_editor)
      = [[104, 105], [121, 111]] := by
    rw [buffer_lines_load_file]
    rfl
  exact ⟨hs, hb, load_save_load small_file init_editor hs⟩

/-! ## Highlighter: the comment state entering a line -/

/-- C10: on the buffer whose line 0 is the string literal `"/*"`, the token scan colours the
whole of line 0 as a string and leaves it with "not in comment", so the replay of line 0
gives "not in comment"; the pre-scan of `draw_line_with_syntax` for line 1 has no string rule,
takes the `/*` inside the literal for a comment opener and enters line 1 "in comment". -/
theorem prescan_differs_on_quoted_comment :
    (scan_line (quoted_comment_lines 0) false 0).out = [(34, 2), (47, 2), (42, 2), (34, 2)] ∧
      (quoted_comment_lines 0).length ≤ (scan_line (quoted_comment_lines 0) false 0).i ∧
      replay_exit quoted_comment_lines 1 = false ∧
      prescan quoted_comment_lines 1 = true ∧
      (scan_line (quoted_comment_lines 1) (prescan quoted_comment_lines 1) 0).out
        = (quoted_comment_lines 1).map (fun c => (c, 3)) := by
  decide

/-! ## Reaching a full buffer -/

theorem load_lines_newlines (k m : Nat) :
    load_lines k (List.replicate m 10) = List.replicate (min k m) [] := by
  induction k generalizing m with
  | zero => simp [load_lines]
  | succ k ih =>
    cases m with
    | zero => simp [load_lines_nil]
    | succ m =>
      rw [List.replicate_succ, load_lines_newline, ih, Nat.succ_min_succ, List.replicate_succ]

/-- Loading a file of `MAX_LINES` newlines leaves a buffer of `MAX_LINES` lines. -/
theorem load_file_reaches_max_lines (ed : Editor) :
    (load_file (some (List.replicate MAX_LINES 10)) ed).num_lines = MAX_LINES := by
  rw [← buffer_lines_length, buffer_lines_load_file, load_lines_newlines, Nat.min_self,
    if_neg (by rw [MAX_LINES, List.replicate_succ]; exact List.cons_ne_nil _ _),
    List.length_replicate]

/-! ## Buffer engine: split, then merge -/

/-- C19: at a valid cursor `(row, col)` in a buffer of fewer than 999 lines, `insert_line`
followed by `delete_char` gives back every live line at its index, the line count and the
cursor `(row, col)` when the current line has at most 998 characters; when it has 999
characters (or more) the `delete_char` refuses the merge and returns the split state
unchanged. -/
theorem split_then_merge (ed : Editor) (hv : valid_cursor ed)
    (hn : ed.num_lines < MAX_LINES - 1) :
    ((ed.lines ed.cursor_y).length ≤ MAX_COLS - 2 →
        (∀ j, j < ed.num_lines → (delete_char (insert_line ed)).lines j = ed.lines j) ∧
        (delete_char (insert_line ed)).num_lines = ed.num_lines ∧
        (delete_char (insert_line ed)).cursor_y = ed.cursor_y ∧
        (delete_char (insert_line ed)).cursor_x = ed.cursor_x) ∧
      (MAX_COLS - 1 ≤ (ed.lines ed.cursor_y).length →
        delete_char (insert_line ed) = insert_line ed ∧
        (insert_line ed).num_lines = ed.num_lines + 1) := by
  obtain ⟨hy, hx⟩ := hv
  have hcx : (insert_line ed).cursor_x = 0 := by simp only [insert_line, if_pos hn]
  have hcy : (insert_line ed).cursor_y = ed.cursor_y + 1 := by
    simp only [insert_line, if_pos hn]
  have hnum : (insert_line ed).num_lines = ed.num_lines + 1 := by
    simp only [insert_line, if_pos hn]
  have hprev : (insert_line ed).lines ((insert_line ed).cursor_y - 1)
      = (ed.lines ed.cursor_y).take ed.cursor_x := by
    rw [hcy, Nat.add_sub_cancel, insert_line_lines ed hn hy, if_pos rfl]
  have hcur : (insert_line ed).lines (insert_line ed).cursor_y
      = (ed.lines ed.cursor_y).drop ed.cursor_x := by
    rw [hcy, insert_line_lines ed hn hy, if_neg (by omega), if_pos rfl]
  have hsum : ((insert_line ed).lines ((insert_line ed).cursor_y - 1)).length
      + ((insert_line ed).lines (insert_line ed).cursor_y).length
      = (ed.lines ed.cursor_y).length := by
    rw [hprev, hcur, List.length_take, List.length_drop]
    omega
  have hpos : 0 < (insert_line ed).cursor_y := by rw [hcy]; omega
  have hx0 : ¬ 0 < (insert_line ed).cursor_x := by rw [hcx]; omega
  constructor
  · intro hlen
    have hfit : ((insert_line ed).lines ((insert_line ed).cursor_y - 1)).length
        + ((insert_line ed).lines (insert_line ed).cursor_y).length < MAX_COLS - 1 := by
      rw [hsum]
      simp only [MAX_COLS] at hlen ⊢
      omega
    refine ⟨?_, ?_, ?_, ?_⟩
    · intro j hj
      rw [delete_char_merge_lines _ hcx hpos hfit, hprev, hcur, hcy, hnum]
      by_cases h1 : ed.cursor_y + 1 ≤ j ∧ j + 1 < ed.num_lines + 1
      · rw [if_pos h1, insert_line_lines ed hn hy, if_neg (by omega), if_neg (by omega),
          if_pos (by omega)]
        rfl
      · rw [if_neg h1]
        by_cases h2 : j = ed.cursor_y + 1 - 1
        · rw [if_pos h2, List.take_append_drop, h2]
          rfl
        · rw [if_neg h2, insert_line_lines ed hn hy, if_neg (by omega), if_neg (by omega),
            if_neg (by omega)]
    · simp only [delete_char, if_neg hx0, if_pos hpos, if_pos hfit]
      rw [hnum]
      rfl
    · simp only [delete_char, if_neg hx0, if_pos hpos, if_pos hfit]
      rw [hcy]
      rfl
    · simp only [delete_char, if_neg hx0, if_pos hpos, if_pos hfit]
      rw [hprev, List.length_take]
      omega
  · intro hlen
    have hfit : ¬ ((insert_line ed).lines ((insert_line ed).cursor_y - 1)).length
        + ((insert_line ed).lines (insert_line ed).cursor_y).length < MAX_COLS - 1 := by
      rw [hsum]
      omega
    refine ⟨?_, hnum⟩
    simp only [delete_char, if_neg hx0, if_pos hpos, if_neg hfit]

theorem split_then_merge_witness :
    valid_cursor sample3 ∧ sample3.num_lines < MAX_LINES - 1 ∧
      (delete_char (insert_line sample3)).lines 0 = [104, 105] ∧
      (delete_char (insert_line sample3)).lines 2 = [122] ∧
      (delete_char (insert_line sample3)).num_lines = 3 ∧
      (delete_char (insert_line sample3)).cursor_x = 1 :=
  have hv : valid_cursor sample3 := by decide
  have hs : sample3.num_lines < MAX_LINES - 1 := by decide
  have h := (split_then_merge sample3 hv hs).1 (by decide)
  ⟨hv, hs, h.1 0 (by decide), h.1 2 (by decide), h.2.1, h.2.2.2⟩

/-! ## Highlighter: reading the line and the inner loops -/

theorem char_at_append (pre : Line) (c : Nat) (t : Line) :
    char_at (pre ++ c :: t) pre.length = c := by
  have h : (pre ++ c :: t)[pre.length]? = some c := by
    rw [List.getElem?_append_right (Nat.le_refl _), Nat.sub_self, List.getElem?_cons_zero]
  simp only [char_at, List.getD_eq_getElem?_getD, h, Option.getD_some]

theorem char_at_append_succ (pre : Line) (c d : Nat) (t : Line) :
    char_at (pre ++ c :: d :: t) (pre.length + 1) = d := by
  have h := char_at_append (pre ++ [c]) d t
  simpa using h

theorem char_at_lt (line : Line) (i : Nat) (h : i < line.length) :
    line.get? i = some (char_at line i) := by
  simp [char_at, List.getD_eq_getElem?_getD, List.getElem?_eq_getElem h]

theorem emit_while_run (p : Nat → Bool) (pre rest : Line) (fuel : Nat) (s : Scan)
    (hi : s.i = pre.length) (hf : rest.length ≤ fuel) :
    emit_while p (pre ++ rest) fuel s =
      { s with i := pre.length + (rest.takeWhile p).length
               out := s.out ++ (rest.takeWhile p).map (fun c => (chtype_of_char c, s.attr)) } := by
  induction rest generalizing pre fuel s with
  | nil =>
    have hlt : ¬ (s.i < (pre ++ []).length ∧ p (char_at (pre ++ []) s.i) = true) := by
      simp [hi]
    cases fuel with
    | zero => cases s; simp_all [emit_while]
    | succ k => rw [emit_while, if_neg hlt]; cases s; simp_all
  | cons c t ih =>
    cases fuel with
    | zero => simp at hf
    | succ k =>
      have hk : t.length ≤ k := by simpa using hf
      rw [emit_while, hi, char_at_append]
      by_cases hp : p c = true
      · have hcond : pre.length < (pre ++ c :: t).length ∧ p c = true :=
          ⟨by simp, hp⟩
        rw [if_pos hcond]
        have hline : pre ++ c :: t = (pre ++ [c]) ++ t := by simp
        rw [hline, ih (pre ++ [c]) k (s.addch c).next (by simp [Scan.next, Scan.addch, hi]) hk]
        simp [Scan.next, Scan.addch, List.takeWhile_cons, hp, Nat.add_assoc, Nat.add_comm 1]
      · have hcond : ¬ (pre.length < (pre ++ c :: t).length ∧ p c = true) := fun h => hp h.2
        rw [if_neg hcond]
        cases s
        simp_all [List.takeWhile_cons]

theorem skip_word_run (pre rest : Line) (fuel : Nat) (s : Scan)
    (hi : s.i = pre.length) (hf : rest.length ≤ fuel) :
    skip_word (pre ++ rest) fuel s =
      { s with i := pre.length + (rest.takeWhile is_word_char).length } := by
  induction rest generalizing pre fuel s with
  | nil =>
    have hlt : ¬ (s.i < (pre ++ []).length ∧
        (isalnum (char_at (pre ++ []) s.i) || char_at (pre ++ []) s.i == 95) = true) := by
      simp [hi]
    cases fuel with
    | zero => cases s; simp_all [skip_word]
    | succ k => rw [skip_word, if_neg hlt]; cases s; simp_all
  | cons c t ih =>
    cases fuel with
    | zero => simp at hf
    | succ k =>
      have hk : t.length ≤ k := by simpa using hf
      rw [skip_word, hi, char_at_append]
      by_cases hp : is_word_char c = true
      · have hcond : pre.length < (pre ++ c :: t).length ∧ (isalnum c || c == 95) = true :=
          ⟨by simp, hp⟩
        rw [if_pos hcond]
        have hline : pre ++ c :: t = (pre ++ [c]) ++ t := by simp
        rw [hline, ih (pre ++ [c]) k s.next (by simp [Scan.next, hi]) hk]
        simp [Scan.next, List.takeWhile_cons, hp, Nat.add_assoc, Nat.add_comm 1]
      · have hcond : ¬ (pre.length < (pre ++ c :: t).length ∧ (isalnum c || c == 95) = true) :=
          fun h => hp h.2
        rw [if_neg hcond]
        cases s
        simp_all [List.takeWhile_cons]

theorem quoted_loop_run (q : Nat) (fuel : Nat) (pre rest : Line) (s : Scan)
    (hi : s.i = pre.length) (hf : rest.length ≤ fuel) :
    quoted_loop q (pre ++ rest) fuel s =
      { s with i := pre.length + (quoted_body q rest).length
               out := s.out ++ (quoted_body q rest).map (fun c => (chtype_of_char c, s.attr)) } := by
  induction fuel generalizing pre rest s with
  | zero =>
    have hr : rest = [] := List.length_eq_zero.mp (Nat.le_zero.mp hf)
    subst hr
    cases s
    simp_all [quoted_loop, quoted_body]
  | succ k ih =>
    match rest, hf with
    | [], _ =>
      have hlt : ¬ (s.i < (pre ++ []).length ∧ char_at (pre ++ []) s.i ≠ q) := by simp [hi]
      rw [quoted_loop, if_neg hlt]
      cases s
      simp_all [quoted_body]
    | [c], _ =>
      rw [quoted_loop, hi, char_at_append]
      by_cases hq : c = q
      · have hcond : ¬ (pre.length < (pre ++ [c]).length ∧ c ≠ q) := fun h => h.2 hq
        rw [if_neg hcond]
        cases s
        simp_all [quoted_body]
      · have hcond : pre.length < (pre ++ [c]).length ∧ c ≠ q := ⟨by simp, hq⟩
        have hesc : ¬ (c = 92 ∧ pre.length + 1 < (pre ++ [c]).length) := by simp
        rw [if_pos hcond]
        simp only [if_neg hesc, hi, char_at_append]
        have hline : pre ++ [c] = (pre ++ [c]) ++ [] := by simp
        rw [hline, ih (pre ++ [c]) [] (s.addch c).next (by simp [Scan.next, Scan.addch, hi])
          (by simp)]
        simp [Scan.next, Scan.addch, quoted_body, hq]
    | c :: d :: t, hf =>
      have hk : t.length + 1 ≤ k := by simpa using hf
      rw [quoted_loop, hi, char_at_append]
      by_cases hq : c = q
      · have hcond : ¬ (pre.length < (pre ++ c :: d :: t).length ∧ c ≠ q) := fun h => h.2 hq
        rw [if_neg hcond]
        cases s
        simp_all [quoted_body]
      · have hcond : pre.length < (pre ++ c :: d :: t).length ∧ c ≠ q := ⟨by simp, hq⟩
        rw [if_pos hcond]
        by_cases he : c = 92
        · subst he
          have hlen : pre.length + 1 < (pre ++ 92 :: d :: t).length := by simp
          simp only [hlen, and_self, if_true]
          have hd : char_at (pre ++ 92 :: d :: t) ((s.addch 92).next).i = d := by
            simp only [Scan.next, Scan.addch, hi]
            exact char_at_append_succ pre 92 d t
          rw [hd]
          have hline : pre ++ 92 :: d :: t = (pre ++ [92, d]) ++ t := by simp
          rw [hline, ih (pre ++ [92, d]) t (((s.addch 92).next).addch d).next
            (by simp [Scan.next, Scan.addch, hi]) (by omega)]
          simp [Scan.next, Scan.addch, quoted_body, hq]
          omega
        · have hesc : ¬ (c = 92 ∧ pre.length + 1 < (pre ++ c :: d :: t).length) :=
            fun h => he h.1
          simp only [if_neg hesc, hi, char_at_append]
          have hline : pre ++ c :: d :: t = (pre ++ [c]) ++ d :: t := by simp
          rw [hline, ih (pre ++ [c]) (d :: t) (s.addch c).next
            (by simp [Scan.next, Scan.addch, hi]) (by simpa using hk)]
          simp [Scan.next, Scan.addch, quoted_body, hq, he]
          omega

theorem quoted_body_split (q : Nat) (n : Nat) (rest : Line) (hn : rest.length ≤ n) :
    rest = quoted_body q rest ∨ ∃ tail, rest = quoted_body q rest ++ q :: tail := by
  induction n generalizing rest with
  | zero =>
    have hr : rest = [] := List.length_eq_zero.mp (Nat.le_zero.mp hn)
    subst hr
    exact Or.inl rfl
  | succ k ih =>
    match rest, hn with
    | [], _ => exact Or.inl rfl
    | [c], _ =>
      by_cases hq : c = q
      · exact Or.inr ⟨[], by simp [quoted_body, hq]⟩
      · exact Or.inl (by simp [quoted_body, hq])
    | c :: d :: t, hn =>
      have hk : t.length + 1 ≤ k := by simpa using hn
      by_cases hq : c = q
      · exact Or.inr ⟨d :: t, by simp [quoted_body, hq]⟩
      · by_cases he : c = 92
        · subst he
          rcases ih t (by omega) with h | ⟨tail, h⟩
          · exact Or.inl (by simp [quoted_body, hq, ← h])
          · refine Or.inr ⟨tail, ?_⟩
            simp only [quoted_body, if_neg hq, if_true, List.cons_append]
            rw [← h]
        · rcases ih (d :: t) (by simpa using hk) with h | ⟨tail, h⟩
          · exact Or.inl (by simp [quoted_body, hq, he, ← h])
          · refine Or.inr ⟨tail, ?_⟩
            simp only [quoted_body, if_neg hq, if_neg he, List.cons_append]
            rw [← h]

/-- The span of a literal after its opening quote is an initial part of the rest of the
line. -/
theorem quoted_span_initial (q : Nat) (rest : Line) : ∃ tail, rest = quoted_span q rest ++ tail := by
  rcases quoted_body_split q rest.length rest (Nat.le_refl _) with h | ⟨tail, h⟩
  · refine ⟨[], ?_⟩
    have hl : ¬ (quoted_body q rest).length < rest.length := by rw [← h]; omega
    rw [quoted_span, if_neg hl, List.append_nil, List.append_nil]
    exact h
  · refine ⟨tail, ?_⟩
    have hl : (quoted_body q rest).length < rest.length := by
      have h2 := congrArg List.length h
      simp only [List.length_append, List.length_cons] at h2
      omega
    rw [quoted_span, if_pos hl, List.append_assoc]
    exact h

theorem line_split (line : Line) (i : Nat) (h : i < line.length) :
    line = line.take i ++ char_at line i :: line.drop (i + 1) := by
  have h1 : line.drop i = char_at line i :: line.drop (i + 1) := by
    rw [List.drop_eq_getElem_cons h]
    simp [char_at, List.getD_eq_getElem?_getD, List.getElem?_eq_getElem h]
  rw [← h1, List.take_append_drop]

theorem length_take_le (line : Line) (i : Nat) (h : i ≤ line.length) :
    (line.take i).length = i := by
  rw [List.length_take]
  omega

theorem emit_while_at (p : Nat → Bool) (line : Line) (s : Scan) (h : s.i ≤ line.length) :
    emit_while p line line.length s =
      { s with i := s.i + ((line.drop s.i).takeWhile p).length
               out := s.out ++ ((line.drop s.i).takeWhile p).map (fun c => (chtype_of_char c, s.attr)) } := by
  have hl := length_take_le line s.i h
  have h1 := emit_while_run p (line.take s.i) (line.drop s.i) line.length s hl.symm
    (by rw [List.length_drop]; omega)
  rw [List.take_append_drop, hl] at h1
  exact h1

theorem skip_word_at (line : Line) (s : Scan) (h : s.i ≤ line.length) :
    skip_word line line.length s =
      { s with i := s.i + ((line.drop s.i).takeWhile is_word_char).length } := by
  have hl := length_take_le line s.i h
  have h1 := skip_word_run (line.take s.i) (line.drop s.i) line.length s hl.symm
    (by rw [List.length_drop]; omega)
  rw [List.take_append_drop, hl] at h1
  exact h1

theorem quoted_loop_at (q : Nat) (line : Line) (s : Scan) (h : s.i ≤ line.length) :
    quoted_loop q line line.length s =
      { s with i := s.i + (quoted_body q (line.drop s.i)).length
               out := s.out ++ (quoted_body q (line.drop s.i)).map (fun c => (chtype_of_char c, s.attr)) } := by
  have hl := length_take_le line s.i h
  have h1 := quoted_loop_run q line.length (line.take s.i) (line.drop s.i) s hl.symm
    (by rw [List.length_drop]; omega)
  rw [List.take_append_drop, hl] at h1
  exact h1

/-- The string and character-literal branch entered at a position `s.i` inside the line:
the opening quote and the span after it are written in colour pair 2, and `i` is left on
the last character of the literal when it is closed, at `len` when it is not. -/
theorem scan_quoted_at (q : Nat) (line : Line) (s : Scan) (h : s.i < line.length) :
    scan_quoted q line s =
      { i := s.i + 1 + (quoted_body q (line.drop (s.i + 1))).length
        in_comment := s.in_comment
        attr := 0
        out := s.out ++
          (char_at line s.i :: quoted_span q (line.drop (s.i + 1))).map (fun c => (chtype_of_char c, 2)) } := by
  have hloop := quoted_loop_at q line ((s.attron 2).addch (char_at line s.i)).next
    (by simp only [Scan.next, Scan.addch, Scan.attron]; omega)
  simp only [scan_quoted, hloop]
  simp only [Scan.next, Scan.addch, Scan.attron, Scan.attroff]
  have hdl : (line.drop (s.i + 1)).length = line.length - (s.i + 1) := List.length_drop _ _
  rcases quoted_body_split q _ (line.drop (s.i + 1)) (Nat.le_refl _) with hb | ⟨tail, hb⟩
  · have hlen : (quoted_body q (line.drop (s.i + 1))).length = line.length - (s.i + 1) := by
      rw [← hb, hdl]
    have hnot : ¬ s.i + 1 + (quoted_body q (line.drop (s.i + 1))).length < line.length := by
      omega
    have hnot2 : ¬ (quoted_body q (line.drop (s.i + 1))).length
        < (line.drop (s.i + 1)).length := by omega
    have hnot3 : ¬ (quoted_body q (line.drop (s.i + 1))).length
        < line.length - (s.i + 1) := by omega
    simp [quoted_span, if_neg hnot, if_neg hnot3]
  · have hlen : (quoted_body q (line.drop (s.i + 1))).length + 1 + tail.length
        = line.length - (s.i + 1) := by
      have h2 := congrArg List.length hb
      simp only [List.length_append, List.length_cons, hdl] at h2
      omega
    have hlt : s.i + 1 + (quoted_body q (line.drop (s.i + 1))).length < line.length := by
      omega
    have hlt2 : (quoted_body q (line.drop (s.i + 1))).length
        < (line.drop (s.i + 1)).length := by omega
    have hch : char_at line (s.i + 1 + (quoted_body q (line.drop (s.i + 1))).length) = q := by
      have hline : line = (line.take (s.i + 1) ++ quoted_body q (line.drop (s.i + 1)))
          ++ q :: tail := by
        rw [List.append_assoc, ← hb, List.take_append_drop]
      have hpl : (line.take (s.i + 1) ++ quoted_body q (line.drop (s.i + 1))).length
          = s.i + 1 + (quoted_body q (line.drop (s.i + 1))).length := by
        rw [List.length_append, length_take_le line (s.i + 1) (by omega)]
      have hc := char_at_append (line.take (s.i + 1) ++ quoted_body q (line.drop (s.i + 1)))
        q tail
      rw [← hline, hpl] at hc
      exact hc
    have hlt3 : (quoted_body q (line.drop (s.i + 1))).length
        < line.length - (s.i + 1) := by omega
    simp [quoted_span, if_pos hlt, if_pos hlt3, hch]

/-! ## Highlighter: one pass through the loop body, branch by branch -/

theorem drop_at (line : Line) (i : Nat) (h : i < line.length) :
    line.drop i = char_at line i :: line.drop (i + 1) := by
  rw [List.drop_eq_getElem_cons h]
  simp [char_at, List.getD_eq_getElem?_getD, List.getElem?_eq_getElem h]

theorem scan_iter_comment_close (line : Line) (s : Scan) (hin : s.in_comment = true)
    (hc : char_at line s.i = 42) (hlt : s.i + 1 < line.length)
    (hn : char_at line (s.i + 1) = 47) :
    scan_iter line s =
      ({ i := s.i + 1, in_comment := false, attr := 0, out := s.out ++ [(42, 3), (47, 3)] },
        false) := by
  simp [scan_iter, hin, hc, hlt, hn, Scan.attron, Scan.addch, Scan.attroff, Scan.next,
    chtype_of_char]

theorem scan_iter_comment_char (line : Line) (s : Scan) (hin : s.in_comment = true)
    (hno : ¬ (char_at line s.i = 42 ∧ s.i + 1 < line.length ∧ char_at line (s.i + 1) = 47)) :
    scan_iter line s =
      ({ s with attr := 3, out := s.out ++ [(chtype_of_char (char_at line s.i), 3)] }, false) := by
  simp only [scan_iter, hin, if_true, if_neg hno, Scan.attron, Scan.addch]

theorem scan_iter_line_comment (line : Line) (s : Scan) (hin : s.in_comment = false)
    (hc : char_at line s.i = 47) (hlt : s.i + 1 < line.length)
    (hn : char_at line (s.i + 1) = 47) :
    scan_iter line s =
      ({ s with attr := 0, out := s.out ++ (line.drop s.i).map (fun c => (c, 3)) }, true) := by
  simp [scan_iter, hin, hc, hlt, hn, Scan.attron, Scan.addstr, Scan.attroff]

theorem scan_iter_open_comment (line : Line) (s : Scan) (hin : s.in_comment = false)
    (hc : char_at line s.i = 47) (hlt : s.i + 1 < line.length)
    (hn : char_at line (s.i + 1) = 42) :
    scan_iter line s =
      ({ i := s.i + 1, in_comment := true, attr := 3, out := s.out ++ [(47, 3), (42, 3)] },
        false) := by
  simp [scan_iter, hin, hc, hlt, hn, Scan.attron, Scan.addch, Scan.next,
    chtype_of_char]

theorem scan_iter_string (line : Line) (s : Scan) (hin : s.in_comment = false)
    (hc : char_at line s.i = 34) :
    scan_iter line s = (scan_quoted 34 line s, false) := by
  simp [scan_iter, hin, hc]

theorem scan_iter_char_literal (line : Line) (s : Scan) (hin : s.in_comment = false)
    (hc : char_at line s.i = 39) :
    scan_iter line s = (scan_quoted 39 line s, false) := by
  simp [scan_iter, hin, hc]

theorem scan_iter_hash (line : Line) (s : Scan) (hin : s.in_comment = false)
    (hc : char_at line s.i = 35) :
    scan_iter line s =
      if s.i = 0 ∨ isspace (char_at line (s.i - 1)) = true then
        ((emit_while is_directive_char line line.length (s.attron 5)).attroff.back, false)
      else (s.addch 35, false) := by
  by_cases hp : s.i = 0 ∨ isspace (char_at line (s.i - 1)) = true
  · simp only [scan_iter, hin, hc, if_pos hp]
    simp
    rw [if_pos hp]
    rfl
  · simp only [scan_iter, hin, hc, if_neg hp]
    simp [isdigit, isalpha, hp]

theorem scan_iter_number (line : Line) (s : Scan) (hin : s.in_comment = false)
    (hnum : isdigit (char_at line s.i) = true ∨
      (char_at line s.i = 46 ∧ s.i + 1 < line.length ∧
        isdigit (char_at line (s.i + 1)) = true)) :
    scan_iter line s =
      ((emit_while is_number_char line line.length (s.attron 4)).attroff.back, false) := by
  have hne : char_at line s.i ≠ 47 ∧ char_at line s.i ≠ 34 ∧ char_at line s.i ≠ 39 ∧
      char_at line s.i ≠ 35 := by
    rcases hnum with h | h
    · simp only [isdigit, Bool.and_eq_true, decide_eq_true_eq] at h
      omega
    · omega
  obtain ⟨h47, h34, h39, h35⟩ := hne
  simp only [scan_iter, hin, h47, h34, h39, h35, false_and, if_false, if_pos hnum]
  simp
  rfl

theorem scan_iter_word (line : Line) (s : Scan) (hin : s.in_comment = false)
    (hw : isalpha (char_at line s.i) = true ∨ char_at line s.i = 95) :
    scan_iter line s = (scan_word line s, false) := by
  have hne : char_at line s.i ≠ 47 ∧ char_at line s.i ≠ 34 ∧ char_at line s.i ≠ 39 ∧
      char_at line s.i ≠ 35 ∧ char_at line s.i ≠ 46 ∧ isdigit (char_at line s.i) = false := by
    rcases hw with h | h
    · simp only [isalpha, Bool.or_eq_true, Bool.and_eq_true, decide_eq_true_eq] at h
      simp only [isdigit, Bool.and_eq_false_iff, decide_eq_false_iff_not]
      omega
    · simp only [isdigit, Bool.and_eq_false_iff, decide_eq_false_iff_not]
      omega
  obtain ⟨h47, h34, h39, h35, h46, hd⟩ := hne
  simp only [scan_iter, hin, h47, h34, h39, h35, h46, hd, false_and, if_false, if_pos hw]
  simp

theorem scan_iter_plain (line : Line) (s : Scan) (hin : s.in_comment = false)
    (h47 : ¬ (char_at line s.i = 47 ∧ s.i + 1 < line.length ∧
      (char_at line (s.i + 1) = 47 ∨ char_at line (s.i + 1) = 42)))
    (h34 : char_at line s.i ≠ 34) (h39 : char_at line s.i ≠ 39)
    (h35 : ¬ (char_at line s.i = 35 ∧ (s.i = 0 ∨ isspace (char_at line (s.i - 1)) = true)))
    (hnum : ¬ (isdigit (char_at line s.i) = true ∨
      (char_at line s.i = 46 ∧ s.i + 1 < line.length ∧
        isdigit (char_at line (s.i + 1)) = true)))
    (hw : ¬ (isalpha (char_at line s.i) = true ∨ char_at line s.i = 95)) :
    scan_iter line s = (s.addch (char_at line s.i), false) := by
  have ha : ¬ (char_at line s.i = 47 ∧ s.i + 1 < line.length ∧ char_at line (s.i + 1) = 47) :=
    fun h => h47 ⟨h.1, h.2.1, Or.inl h.2.2⟩
  have hb : ¬ (char_at line s.i = 47 ∧ s.i + 1 < line.length ∧ char_at line (s.i + 1) = 42) :=
    fun h => h47 ⟨h.1, h.2.1, Or.inr h.2.2⟩
  simp only [scan_iter, hin, if_neg ha, if_neg hb, h34, h39, if_neg h35, if_neg hnum, if_neg hw,
    if_false]
  simp

theorem emit_span (p : Nat → Bool) (k : Nat) (line : Line) (s : Scan)
    (h : s.i ≤ line.length) :
    (emit_while p line line.length (s.attron k)).attroff.back =
      { i := s.i + ((line.drop s.i).takeWhile p).length - 1
        in_comment := s.in_comment
        attr := 0
        out := s.out ++ ((line.drop s.i).takeWhile p).map (fun c => (chtype_of_char c, k)) } := by
  rw [emit_while_at p line (s.attron k) h]
  simp [Scan.attron, Scan.attroff, Scan.back]

theorem take_length_takeWhile (p : Nat → Bool) (l : Line) :
    l.take (l.takeWhile p).length = l.takeWhile p := by
  induction l with
  | nil => rfl
  | cons a t ih =>
    by_cases ha : p a = true
    · rw [List.takeWhile_cons_of_pos ha, List.length_cons, List.take_succ_cons, ih]
    · rw [List.takeWhile_cons_of_neg ha]
      rfl

/-- The identifier branch at a position of the line: the word is the longest run of word
characters from that position; it is written in colour pair 1 when it is a keyword, in the
colour pair in force when it is not, and not written when it has 100 characters or more. -/
theorem scan_word_at (line : Line) (s : Scan) (h : s.i ≤ line.length) :
    scan_word line s =
      { i := s.i + ((line.drop s.i).takeWhile is_word_char).length - 1
        in_comment := s.in_comment
        attr := if ((line.drop s.i).takeWhile is_word_char).length < 100 ∧
            is_c_keyword ((line.drop s.i).takeWhile is_word_char) = true then 0 else s.attr
        out := s.out ++
          if ((line.drop s.i).takeWhile is_word_char).length < 100 then
            ((line.drop s.i).takeWhile is_word_char).map
              (fun c => (c, if is_c_keyword ((line.drop s.i).takeWhile is_word_char) = true
                then 1 else s.attr))
          else [] } := by
  simp only [scan_word, skip_word_at line s h, Nat.add_sub_cancel_left, take_length_takeWhile]
  by_cases hl : ((line.drop s.i).takeWhile is_word_char).length < 100
  · by_cases hk : is_c_keyword ((line.drop s.i).takeWhile is_word_char) = true
    · simp [hl, hk, Scan.attron, Scan.addstr, Scan.attroff, Scan.back]
    · simp [hl, hk, Scan.addstr, Scan.back]
  · simp [hl, Scan.back]

/-! ## Highlighter: every pass advances -/

theorem takeWhile_head_pos (p : Nat → Bool) (line : Line) (i : Nat) (h : i < line.length)
    (hp : p (char_at line i) = true) : 1 ≤ ((line.drop i).takeWhile p).length := by
  rw [drop_at line i h, List.takeWhile_cons_of_pos hp, List.length_cons]
  omega

theorem is_number_char_of_start (c : Nat) (h : isdigit c = true ∨ c = 46) :
    is_number_char c = true := by
  rcases h with h | h
  · simp [is_number_char, h]
  · subst h
    decide

theorem is_word_char_of_start (c : Nat) (h : isalpha c = true ∨ c = 95) :
    is_word_char c = true := by
  rcases h with h | h
  · simp [is_word_char, isalnum, h]
  · subst h
    decide

/-- Where one pass through the loop body leaves `i`: not before the position it started
from, unless it leaves the loop with `break`. -/
theorem scan_iter_progress (line : Line) (s : Scan) (h : s.i < line.length) :
    (scan_iter line s).2 = true ∨ s.i ≤ (scan_iter line s).1.i := by
  by_cases hin : s.in_comment = true
  · by_cases hc : char_at line s.i = 42 ∧ s.i + 1 < line.length ∧ char_at line (s.i + 1) = 47
    · rw [scan_iter_comment_close line s hin hc.1 hc.2.1 hc.2.2]
      exact Or.inr (Nat.le_succ _)
    · rw [scan_iter_comment_char line s hin hc]
      exact Or.inr (Nat.le_refl _)
  · have hin : s.in_comment = false := by simpa using hin
    by_cases h47 : char_at line s.i = 47 ∧ s.i + 1 < line.length ∧
        (char_at line (s.i + 1) = 47 ∨ char_at line (s.i + 1) = 42)
    · rcases h47.2.2 with hn | hn
      · rw [scan_iter_line_comment line s hin h47.1 h47.2.1 hn]
        exact Or.inl rfl
      · rw [scan_iter_open_comment line s hin h47.1 h47.2.1 hn]
        exact Or.inr (Nat.le_succ _)
    · by_cases h34 : char_at line s.i = 34
      · rw [scan_iter_string line s hin h34, scan_quoted_at 34 line s h]
        exact Or.inr (by show s.i ≤ s.i + 1 + _; omega)
      · by_cases h39 : char_at line s.i = 39
        · rw [scan_iter_char_literal line s hin h39, scan_quoted_at 39 line s h]
          exact Or.inr (by show s.i ≤ s.i + 1 + _; omega)
        · by_cases h35 : char_at line s.i = 35 ∧
              (s.i = 0 ∨ isspace (char_at line (s.i - 1)) = true)
          · rw [scan_iter_hash line s hin h35.1, if_pos h35.2, emit_span _ _ line s (by omega)]
            have hp := takeWhile_head_pos is_directive_char line s.i h
              (by rw [h35.1]; decide)
            exact Or.inr (by show s.i ≤ s.i + _ - 1; omega)
          · by_cases hnum : isdigit (char_at line s.i) = true ∨
                (char_at line s.i = 46 ∧ s.i + 1 < line.length ∧
                  isdigit (char_at line (s.i + 1)) = true)
            · rw [scan_iter_number line s hin hnum, emit_span _ _ line s (by omega)]
              have hp := takeWhile_head_pos is_number_char line s.i h
                (is_number_char_of_start _ (hnum.imp id (fun x => x.1)))
              exact Or.inr (by show s.i ≤ s.i + _ - 1; omega)
            · by_cases hw : isalpha (char_at line s.i) = true ∨ char_at line s.i = 95
              · rw [scan_iter_word line s hin hw, scan_word_at line s (by omega)]
                have hp := takeWhile_head_pos is_word_char line s.i h
                  (is_word_char_of_start _ hw)
                exact Or.inr (by show s.i ≤ s.i + _ - 1; omega)
              · rw [scan_iter_plain line s hin h47 h34 h39 h35 hnum hw]
                exact Or.inr (Nat.le_refl _)

/-- Any number of passes that covers the characters left gives the same result: the loop
has stopped by its own test, or by `break`, before the bound is reached. -/
theorem scan_loop_fuel (line : Line) (f1 f2 : Nat) (s : Scan)
    (h1 : line.length - s.i ≤ f1) (h2 : line.length - s.i ≤ f2) :
    scan_loop line f1 s = scan_loop line f2 s := by
  induction f1 generalizing f2 s with
  | zero =>
    have hle : ¬ s.i < line.length := by omega
    cases f2 with
    | zero => rfl
    | succ k => rw [scan_loop, scan_loop, if_neg hle]
  | succ k ih =>
    by_cases hlt : s.i < line.length
    · cases f2 with
      | zero => omega
      | succ m =>
        rw [scan_loop, scan_loop, if_pos hlt, if_pos hlt]
        by_cases hb : (scan_iter line s).2 = true
        · rw [if_pos hb, if_pos hb]
        · rw [if_neg hb, if_neg hb]
          have hp := (scan_iter_progress line s hlt).resolve_left hb
          apply ih
          · show line.length - ((scan_iter line s).1.i + 1) ≤ k
            omega
          · show line.length - ((scan_iter line s).1.i + 1) ≤ m
            omega
    · rw [scan_loop, if_neg hlt]
      cases f2 with
      | zero => rfl
      | succ m => rw [scan_loop, if_neg hlt]

theorem scan_loop_eq_scan_from (line : Line) (fuel : Nat) (s : Scan)
    (h : line.length - s.i ≤ fuel) : scan_loop line fuel s = scan_from line s :=
  scan_loop_fuel line fuel (line.length - s.i) s h (Nat.le_refl _)

theorem scan_from_done (line : Line) (s : Scan) (h : line.length ≤ s.i) :
    scan_from line s = s := by
  have h0 : line.length - s.i = 0 := by omega
  rw [scan_from, h0]
  rfl

theorem scan_from_step (line : Line) (s : Scan) (h : s.i < line.length) :
    scan_from line s =
      if (scan_iter line s).2 = true then (scan_iter line s).1
      else scan_from line (scan_iter line s).1.next := by
  have hf : line.length - s.i = (line.length - s.i - 1) + 1 := by omega
  rw [scan_from, hf, scan_loop, if_pos h]
  by_cases hb : (scan_iter line s).2 = true
  · rw [if_pos hb, if_pos hb]
  · rw [if_neg hb, if_neg hb]
    have hp := (scan_iter_progress line s h).resolve_left hb
    apply scan_loop_eq_scan_from
    show line.length - ((scan_iter line s).1.i + 1) ≤ line.length - s.i - 1
    omega

theorem scan_line_eq_scan_from (line : Line) (in_comment : Bool) (attr : Nat) :
    scan_line line in_comment attr =
      scan_from line { i := 0, in_comment := in_comment, attr := attr, out := [] } := rfl

/-! ## Highlighter: the reads stay inside the line -/

theorem read_at_lt (line : Line) (i : Nat) (h : i < line.length) :
    read_at line i = some (char_at line i) := char_at_lt line i h

theorem follows_eq (line : Line) (i : Nat) (p : Nat → Bool) :
    follows line i p = some (decide (i + 1 < line.length ∧ p (char_at line (i + 1)) = true)) := by
  by_cases h : i + 1 < line.length
  · simp [follows, h, read_at_lt line (i + 1) h]
  · simp [follows, h]

theorem after_space_eq (line : Line) (i : Nat) (h : i < line.length) :
    after_space line i = some (decide (i = 0 ∨ isspace (char_at line (i - 1)) = true)) := by
  by_cases h0 : i = 0
  · simp [after_space, h0]
  · simp [after_space, h0, read_at_lt line (i - 1) (by omega)]

theorem emit_while_checked_eq (p : Nat → Bool) (line : Line) (fuel : Nat) (s : Scan)
    (hf : line.length - s.i ≤ fuel) :
    emit_while_checked p line fuel s = some (emit_while p line fuel s) := by
  induction fuel generalizing s with
  | zero =>
    have hle : ¬ s.i < line.length := by omega
    simp [emit_while_checked, emit_while, hle]
  | succ k ih =>
    by_cases hlt : s.i < line.length
    · by_cases hp : p (char_at line s.i) = true
      · have hrec := ih (s.addch (char_at line s.i)).next
          (by show line.length - (s.i + 1) ≤ k; omega)
        simp [emit_while_checked, emit_while, hlt, read_at_lt line s.i hlt, hp, hrec]
      · simp [emit_while_checked, emit_while, hlt, read_at_lt line s.i hlt, hp]
    · simp [emit_while_checked, emit_while, hlt]

theorem skip_word_checked_eq (line : Line) (fuel : Nat) (s : Scan)
    (hf : line.length - s.i ≤ fuel) :
    skip_word_checked line fuel s = some (skip_word line fuel s) := by
  induction fuel generalizing s with
  | zero =>
    have hle : ¬ s.i < line.length := by omega
    simp [skip_word_checked, skip_word, hle]
  | succ k ih =>
    by_cases hlt : s.i < line.length
    · by_cases hp : (isalnum (char_at line s.i) || char_at line s.i == 95) = true
      · have hrec := ih s.next (by show line.length - (s.i + 1) ≤ k; omega)
        simp only [skip_word_checked, skip_word, if_pos hlt, read_at_lt line s.i hlt, if_pos hp,
          hrec, if_pos (And.intro hlt hp)]
      · simp only [skip_word_checked, skip_word, if_pos hlt, read_at_lt line s.i hlt, if_neg hp,
          if_neg (fun h : s.i < line.length ∧ _ => hp h.2)]
    · simp [skip_word_checked, skip_word, hlt]

theorem quoted_loop_checked_eq (q : Nat) (line : Line) (fuel : Nat) (s : Scan)
    (hf : line.length - s.i ≤ fuel) :
    quoted_loop_checked q line fuel s = some (quoted_loop q line fuel s) := by
  induction fuel generalizing s with
  | zero =>
    have hle : ¬ s.i < line.length := by omega
    simp [quoted_loop_checked, quoted_loop, hle]
  | succ k ih =>
    by_cases hlt : s.i < line.length
    · by_cases hq : char_at line s.i = q
      · simp [quoted_loop_checked, quoted_loop, hlt, read_at_lt line s.i hlt, hq]
      · by_cases he : char_at line s.i = 92 ∧ s.i + 1 < line.length
        · have hrec := ih (((s.addch (char_at line s.i)).next).addch
              (char_at line (s.i + 1))).next (by show line.length - (s.i + 1 + 1) ≤ k; omega)
          have hr2 : read_at line (s.i + 1)
              = some (char_at line (s.i + 1)) := read_at_lt line (s.i + 1) he.2
          have hi2 : ((s.addch (char_at line s.i)).next).i = s.i + 1 := rfl
          simp only [quoted_loop_checked, quoted_loop, if_pos hlt, read_at_lt line s.i hlt,
            if_pos (show char_at line s.i ≠ q from hq), if_pos he, hr2, hi2, hrec,
            if_pos (And.intro hlt (show char_at line s.i ≠ q from hq))]
        · have hrec := ih (s.addch (char_at line s.i)).next
            (by show line.length - (s.i + 1) ≤ k; omega)
          simp only [quoted_loop_checked, quoted_loop, if_pos hlt, read_at_lt line s.i hlt,
            if_pos (show char_at line s.i ≠ q from hq), if_neg he, hrec,
            if_pos (And.intro hlt (show char_at line s.i ≠ q from hq))]
    · simp [quoted_loop_checked, quoted_loop, hlt]

theorem scan_quoted_checked_eq (q : Nat) (line : Line) (s : Scan) (_h : s.i < line.length) :
    scan_quoted_checked q line s (char_at line s.i) = some (scan_quoted q line s) := by
  have hloop := quoted_loop_checked_eq q line line.length
    ((s.attron 2).addch (char_at line s.i)).next (Nat.sub_le _ _)
  simp only [scan_quoted_checked, hloop, scan_quoted]
  by_cases hlt : (quoted_loop q line line.length
      ((s.attron 2).addch (char_at line s.i)).next).i < line.length
  · simp only [if_pos hlt, read_at_lt line _ hlt]
  · simp only [if_neg hlt]

theorem takeWhile_length_le_drop (p : Nat → Bool) (line : Line) (i : Nat) :
    i + ((line.drop i).takeWhile p).length ≤ max i line.length := by
  have h1 : ((line.drop i).takeWhile p).length ≤ (line.drop i).length :=
    (List.takeWhile_sublist p).length_le
  rw [List.length_drop] at h1
  omega

theorem scan_word_checked_eq (line : Line) (s : Scan) (h : s.i < line.length)
    (hw : isalpha (char_at line s.i) = true ∨ char_at line s.i = 95) :
    scan_word_checked line s = some (scan_word line s) := by
  have hskip := skip_word_checked_eq line line.length s (Nat.sub_le _ _)
  have hat := skip_word_at line s (by omega)
  have hpos := takeWhile_head_pos is_word_char line s.i h (is_word_char_of_start _ hw)
  have hle := takeWhile_length_le_drop is_word_char line s.i
  have hi : (skip_word line line.length s).i
      = s.i + ((line.drop s.i).takeWhile is_word_char).length := by rw [hat]
  have hin : s.i + ((skip_word line line.length s).i - s.i) ≤ line.length := by
    rw [hi]
    omega
  simp only [scan_word_checked, hskip, if_pos hin, scan_word]
  have hback : ∀ r : Scan, r.i = (skip_word line line.length s).i →
      back_checked r = some r.back := by
    intro r hr
    have : ¬ r.i = 0 := by rw [hr, hi]; omega
    simp only [back_checked, if_neg this]
  apply hback
  split
  · split <;> rfl
  · rfl

/-- One pass through the loop body reads inside the line only, and takes `i` below 0
nowhere: with checked reads it gives what the body gives. -/
theorem scan_iter_checked_eq (line : Line) (s : Scan) (h : s.i < line.length) :
    scan_iter_checked line s = some (scan_iter line s) := by
  have hr := read_at_lt line s.i h
  by_cases hin : s.in_comment = true
  · by_cases hc : char_at line s.i = 42 ∧ s.i + 1 < line.length ∧ char_at line (s.i + 1) = 47
    · rw [scan_iter_comment_close line s hin hc.1 hc.2.1 hc.2.2]
      simp [scan_iter_checked, hr, hin, hc.1, follows_eq, hc.2.1, hc.2.2,
        read_at_lt line (s.i + 1) hc.2.1, Scan.attron, Scan.addch, Scan.attroff, Scan.next,
        chtype_of_char]
    · rw [scan_iter_comment_char line s hin hc]
      by_cases h42 : char_at line s.i = 42
      · have hf : ¬ (s.i + 1 < line.length ∧ char_at line (s.i + 1) = 47) :=
          fun hx => hc ⟨h42, hx.1, hx.2⟩
        simp [scan_iter_checked, hr, hin, h42, follows_eq, hf, Scan.attron, Scan.addch]
      · simp [scan_iter_checked, hr, hin, h42, Scan.attron, Scan.addch]
  · have hin : s.in_comment = false := by simpa using hin
    by_cases h47 : char_at line s.i = 47 ∧ s.i + 1 < line.length ∧
        (char_at line (s.i + 1) = 47 ∨ char_at line (s.i + 1) = 42)
    · rcases h47.2.2 with hn | hn
      · rw [scan_iter_line_comment line s hin h47.1 h47.2.1 hn]
        simp [scan_iter_checked, hr, hin, h47.1, follows_eq, h47.2.1, hn, Scan.attron,
          Scan.addstr, Scan.attroff]
      · rw [scan_iter_open_comment line s hin h47.1 h47.2.1 hn]
        simp [scan_iter_checked, hr, hin, h47.1, follows_eq, h47.2.1, hn,
          read_at_lt line (s.i + 1) h47.2.1, Scan.attron, Scan.addch, Scan.next, chtype_of_char]
    · have hfa : (if char_at line s.i = 47 then follows line s.i (fun d => d == 47)
          else some false) = some false := by
        by_cases hx : char_at line s.i = 47
        · rw [if_pos hx, follows_eq]
          simp only [Option.some.injEq, decide_eq_false_iff_not, beq_iff_eq]
          exact fun hy => h47 ⟨hx, hy.1, Or.inl hy.2⟩
        · rw [if_neg hx]
      have hfb : (if char_at line s.i = 47 then follows line s.i (fun d => d == 42)
          else some false) = some false := by
        by_cases hx : char_at line s.i = 47
        · rw [if_pos hx, follows_eq]
          simp only [Option.some.injEq, decide_eq_false_iff_not, beq_iff_eq]
          exact fun hy => h47 ⟨hx, hy.1, Or.inr hy.2⟩
        · rw [if_neg hx]
      have hin2 : ¬ s.in_comment = true := by simp [hin]
      simp only [scan_iter_checked, hr, if_neg hin2, hfa, hfb]
      by_cases h34 : char_at line s.i = 34
      · rw [scan_iter_string line s hin h34, if_pos h34]
        rw [scan_quoted_checked_eq 34 line s h]
        rfl
      · by_cases h39 : char_at line s.i = 39
        · rw [scan_iter_char_literal line s hin h39, if_neg h34, if_pos h39]
          rw [scan_quoted_checked_eq 39 line s h]
          rfl
        · rw [if_neg h34, if_neg h39]
          by_cases h35 : char_at line s.i = 35
          · rw [scan_iter_hash line s hin h35, if_pos h35, after_space_eq line s.i h]
            by_cases hsp : s.i = 0 ∨ isspace (char_at line (s.i - 1)) = true
            · rw [if_pos hsp]
              have hd : decide (s.i = 0 ∨ isspace (char_at line (s.i - 1)) = true) = true :=
                decide_eq_true hsp
              rw [hd]
              have hem := emit_while_checked_eq is_directive_char line line.length (s.attron 5)
                (Nat.sub_le _ _)
              have hpos := takeWhile_head_pos is_directive_char line s.i h
                (by rw [h35]; decide)
              have hat := emit_while_at is_directive_char line (s.attron 5) (by
                show s.i ≤ line.length
                omega)
              have hi : ((emit_while is_directive_char line line.length (s.attron 5)).attroff).i
                  = s.i + ((line.drop s.i).takeWhile is_directive_char).length := by
                rw [hat]
                rfl
              have hne : ¬ ((emit_while is_directive_char line line.length
                  (s.attron 5)).attroff).i = 0 := by
                rw [hi]
                omega
              show (match emit_while_checked is_directive_char line line.length (s.attron 5) with
                | none => none
                | some r => (back_checked r.attroff).map (fun r => (r, false))) = _
              rw [hem]
              simp only [back_checked, if_neg hne, Option.map_some']
            · rw [if_neg hsp]
              have hd : decide (s.i = 0 ∨ isspace (char_at line (s.i - 1)) = true) = false :=
                decide_eq_false hsp
              rw [hd]
              simp [h35, isdigit, isalpha]
          · rw [if_neg h35]
            by_cases hnum : isdigit (char_at line s.i) = true ∨
                (char_at line s.i = 46 ∧ s.i + 1 < line.length ∧
                  isdigit (char_at line (s.i + 1)) = true)
            · rw [scan_iter_number line s hin hnum]
              have htest : (if isdigit (char_at line s.i) = true then some true
                  else if char_at line s.i = 46 then follows line s.i isdigit else some false)
                  = some true := by
                rcases hnum with hx | hx
                · rw [if_pos hx]
                · by_cases hdg : isdigit (char_at line s.i) = true
                  · rw [if_pos hdg]
                  · rw [if_neg hdg, if_pos hx.1, follows_eq]
                    simp [hx.2.1, hx.2.2]
              rw [htest]
              have hem := emit_while_checked_eq is_number_char line line.length (s.attron 4)
                (Nat.sub_le _ _)
              have hpos := takeWhile_head_pos is_number_char line s.i h
                (is_number_char_of_start _ (hnum.imp id (fun x => x.1)))
              have hat := emit_while_at is_number_char line (s.attron 4) (by
                show s.i ≤ line.length
                omega)
              have hi : ((emit_while is_number_char line line.length (s.attron 4)).attroff).i
                  = s.i + ((line.drop s.i).takeWhile is_number_char).length := by
                rw [hat]
                rfl
              have hne : ¬ ((emit_while is_number_char line line.length
                  (s.attron 4)).attroff).i = 0 := by
                rw [hi]
                omega
              show (match emit_while_checked is_number_char line line.length (s.attron 4) with
                | none => none
                | some r => (back_checked r.attroff).map (fun r => (r, false))) = _
              rw [hem]
              simp only [back_checked, if_neg hne, Option.map_some']
            · have htest : (if isdigit (char_at line s.i) = true then some true
                  else if char_at line s.i = 46 then follows line s.i isdigit else some false)
                  = some false := by
                have hdg : ¬ isdigit (char_at line s.i) = true := fun hx => hnum (Or.inl hx)
                rw [if_neg hdg]
                by_cases h46 : char_at line s.i = 46
                · rw [if_pos h46, follows_eq]
                  simp only [Option.some.injEq, decide_eq_false_iff_not]
                  exact fun hy => hnum (Or.inr ⟨h46, hy.1, hy.2⟩)
                · rw [if_neg h46]
              rw [htest]
              by_cases hw : isalpha (char_at line s.i) = true ∨ char_at line s.i = 95
              · rw [scan_iter_word line s hin hw, scan_word_checked_eq line s h hw]
                simp only [if_pos hw, Option.map_some']
              · have h35b : ¬ (char_at line s.i = 35 ∧
                    (s.i = 0 ∨ isspace (char_at line (s.i - 1)) = true)) := fun hx => h35 hx.1
                rw [scan_iter_plain line s hin h47 h34 h39 h35b hnum hw]
                simp only [if_neg hw]

theorem scan_loop_checked_eq (line : Line) (fuel : Nat) (s : Scan)
    (hf : line.length - s.i ≤ fuel) :
    scan_loop_checked line fuel s = some (scan_loop line fuel s) := by
  induction fuel generalizing s with
  | zero =>
    have hle : ¬ s.i < line.length := by omega
    simp only [scan_loop_checked, scan_loop, if_neg hle]
  | succ k ih =>
    by_cases hlt : s.i < line.length
    · simp only [scan_loop_checked, scan_loop, if_pos hlt, scan_iter_checked_eq line s hlt]
      by_cases hb : (scan_iter line s).2 = true
      · simp only [if_pos hb]
      · simp only [if_neg hb]
        have hp := (scan_iter_progress line s hlt).resolve_left hb
        exact ih _ (by show line.length - ((scan_iter line s).1.i + 1) ≤ k; omega)
    · simp only [scan_loop_checked, scan_loop, if_neg hlt]

/-- C20: for every line and every entering state the token scan loop terminates within
`len` passes with every read inside `0 .. len - 1` and no `i--` below 0 (the scan with
checked reads and `len` passes allowed succeeds, with the result of the scan); every pass
through the body, from any state with `i < len`, either leaves the loop with `break` or
hands the `i++` of the loop an index not below the one it started with, so that `i` grows by
at least one; and allowing more than `len` passes changes nothing. -/
theorem scan_terminates_in_bounds (line : Line) (in_comment : Bool) (attr : Nat) :
    scan_loop_checked line line.length
        { i := 0, in_comment := in_comment, attr := attr, out := [] }
      = some (scan_line line in_comment attr) ∧
    (∀ s : Scan, s.i < line.length →
      scan_iter_checked line s = some (scan_iter line s) ∧
      ((scan_iter line s).2 = true ∨ s.i + 1 ≤ (scan_iter line s).1.next.i)) ∧
    (∀ fuel, line.length ≤ fuel →
      scan_loop line fuel { i := 0, in_comment := in_comment, attr := attr, out := [] }
        = scan_line line in_comment attr) := by
  refine ⟨scan_loop_checked_eq line line.length _ (Nat.sub_le _ _), ?_, ?_⟩
  · intro s hs
    refine ⟨scan_iter_checked_eq line s hs, ?_⟩
    rcases scan_iter_progress line s hs with hb | hp
    · exact Or.inl hb
    · exact Or.inr (Nat.succ_le_succ hp)
  · intro fuel hfuel
    exact scan_loop_fuel line fuel line.length _ (by show line.length - 0 ≤ fuel; omega)
      (Nat.sub_le _ _)

theorem scan_terminates_in_bounds_witness :
    scan_loop_checked [35, 120] 2 { i := 0, in_comment := false, attr := 0, out := [] }
        = some (scan_line [35, 120] false 0) ∧
      0 + 1 ≤ (scan_iter [35, 120]
        { i := 0, in_comment := false, attr := 0, out := [] }).1.next.i :=
  ⟨(scan_terminates_in_bounds [35, 120] false 0).1,
    (((scan_terminates_in_bounds [35, 120] false 0).2.1
      { i := 0, in_comment := false, attr := 0, out := [] } (by decide)).2).resolve_left
      (by decide)⟩

/-! ## Highlighter: inside a multi-line comment -/

theorem has_close_tail (c : Nat) (l : Line) (h : has_close (c :: l) = false) :
    has_close l = false := by
  cases l with
  | nil => rfl
  | cons d t =>
    simp only [has_close, Bool.or_eq_false_iff] at h
    exact h.2

theorem has_close_head (c d : Nat) (t : Line) (h : has_close (c :: d :: t) = false) :
    ¬ (c = 42 ∧ d = 47) := by
  simp only [has_close, Bool.or_eq_false_iff, Bool.and_eq_false_iff, beq_eq_false_iff_ne] at h
  intro hx
  rcases h.1 with h1 | h1
  · exact h1 hx.1
  · exact h1 hx.2

/-- In comment mode, a position from which the line holds no `*/`: the loop writes every
character left in colour pair 3 and ends in comment mode. -/
theorem comment_run_open (line : Line) (n : Nat) (s : Scan) (hn : line.length - s.i = n)
    (hle : s.i ≤ line.length) (hin : s.in_comment = true)
    (hno : has_close (line.drop s.i) = false) :
    scan_from line s =
      { i := line.length, in_comment := true, attr := if s.i < line.length then 3 else s.attr
        out := s.out ++ (line.drop s.i).map (fun c => (chtype_of_char c, 3)) } := by
  induction n generalizing s with
  | zero =>
    have heq : s.i = line.length := by omega
    have hd : line.drop s.i = [] := List.drop_eq_nil_of_le (by omega)
    rw [scan_from_done line s (by omega), hd, if_neg (by omega)]
    cases s
    simp_all
  | succ k ih =>
    have hlt : s.i < line.length := by omega
    have hdrop := drop_at line s.i hlt
    have hno2 : has_close (line.drop (s.i + 1)) = false := by
      rw [hdrop] at hno
      exact has_close_tail _ _ hno
    have hc : ¬ (char_at line s.i = 42 ∧ s.i + 1 < line.length ∧
        char_at line (s.i + 1) = 47) := by
      intro hx
      rw [hdrop, drop_at line (s.i + 1) hx.2.1] at hno
      exact has_close_head _ _ _ hno ⟨hx.1, hx.2.2⟩
    rw [scan_from_step line s hlt, scan_iter_comment_char line s hin hc]
    simp only [Bool.false_eq_true, if_false]
    have hk : line.length - (s.i + 1) = k := by omega
    have hle2 : s.i + 1 ≤ line.length := by omega
    rw [ih (Scan.next { s with attr := 3, out := s.out ++ [(chtype_of_char (char_at line s.i), 3)] }) hk hle2
      hin hno2, hdrop, if_pos hlt]
    simp [Scan.next]

/-- In comment mode, when the first `*/` from the position `s.i` starts `k` characters
further: the loop writes these `k` characters and the `*/` in colour pair 3, then goes on
from behind the `*/` in normal mode with no colour pair on. -/
theorem comment_run_close (line : Line) (k : Nat) (s : Scan) (hin : s.in_comment = true)
    (hlt : s.i + k + 1 < line.length)
    (hno : has_close ((line.drop s.i).take k) = false)
    (h42 : char_at line (s.i + k) = 42) (h47 : char_at line (s.i + k + 1) = 47) :
    scan_from line s =
      scan_from line
        { i := s.i + k + 2, in_comment := false, attr := 0
          out := s.out ++ ((line.drop s.i).take (k + 2)).map (fun c => (chtype_of_char c, 3)) } := by
  induction k generalizing s with
  | zero =>
    have hlt0 : s.i < line.length := by omega
    rw [scan_from_step line s hlt0, scan_iter_comment_close line s hin h42 (by omega) h47]
    simp only [Bool.false_eq_true, if_false]
    have hd : (line.drop s.i).take 2 = [42, 47] := by
      rw [drop_at line s.i hlt0, drop_at line (s.i + 1) (by omega)]
      simp only [Nat.add_zero] at h42 h47
      rw [h42, h47]
      rfl
    simp only [Nat.add_zero, Nat.zero_add, hd]
    rfl
  | succ k ih =>
    have hlt0 : s.i < line.length := by omega
    have hdrop := drop_at line s.i hlt0
    have hdrop2 := drop_at line (s.i + 1) (by omega)
    have hc : ¬ (char_at line s.i = 42 ∧ s.i + 1 < line.length ∧
        char_at line (s.i + 1) = 47) := by
      intro hx
      cases k with
      | zero =>
        have h42b : char_at line (s.i + 1) = 42 := h42
        omega
      | succ j =>
        rw [hdrop, hdrop2] at hno
        simp only [List.take_succ_cons] at hno
        exact has_close_head _ _ _ hno ⟨hx.1, hx.2.2⟩
    have hno2 : has_close ((line.drop (s.i + 1)).take k) = false := by
      rw [hdrop, List.take_succ_cons] at hno
      exact has_close_tail _ _ hno
    rw [scan_from_step line s hlt0, scan_iter_comment_char line s hin hc]
    simp only [Bool.false_eq_true, if_false]
    have hidx : s.i + 1 + k = s.i + (k + 1) := by omega
    rw [ih (Scan.next { s with attr := 3, out := s.out ++ [(chtype_of_char (char_at line s.i), 3)] }) hin
      (by show s.i + 1 + k + 1 < line.length; omega) hno2
      (by show char_at line (s.i + 1 + k) = 42; rw [hidx]; exact h42)
      (by show char_at line (s.i + 1 + k + 1) = 47; rw [hidx]; exact h47)]
    have hout : (line.drop s.i).take (k + 1 + 2)
        = char_at line s.i :: (line.drop (s.i + 1)).take (k + 2) := by
      rw [hdrop, List.take_succ_cons]
    simp only [Scan.next, hout, List.map_cons, List.append_assoc, List.singleton_append]
    have hi2 : s.i + 1 + k + 2 = s.i + (k + 1) + 2 := by omega
    rw [hi2]

/-! ## Highlighter: what one pass writes -/

theorem take_two_drop (line : Line) (i : Nat) (h : i + 1 < line.length) :
    (line.drop i).take 2 = [char_at line i, char_at line (i + 1)] := by
  rw [drop_at line i (by omega), drop_at line (i + 1) h]
  rfl

theorem take_one_drop (line : Line) (i : Nat) (h : i < line.length) :
    (line.drop i).take 1 = [char_at line i] := by
  rw [drop_at line i h]
  rfl

theorem quoted_span_eq_take (q : Nat) (rest : Line) :
    quoted_span q rest = rest.take ((quoted_body q rest).length + 1) := by
  rcases quoted_body_split q rest.length rest (Nat.le_refl _) with h | ⟨tail, h⟩
  · have hl : ¬ (quoted_body q rest).length < rest.length := by rw [← h]; omega
    rw [quoted_span, if_neg hl, List.append_nil, List.take_of_length_le (by omega)]
    exact h.symm
  · have hl : (quoted_body q rest).length < rest.length := by
      have h2 := congrArg List.length h
      simp only [List.length_append, List.length_cons] at h2
      omega
    rw [quoted_span, if_pos hl]
    obtain ⟨b, hb⟩ : ∃ b, b = quoted_body q rest := ⟨_, rfl⟩
    rw [← hb] at h ⊢
    have h3 : b ++ q :: tail = (b ++ [q]) ++ tail := by simp
    rw [h, h3, List.take_left' (by simp)]

theorem chartext_chtype (c : Nat) (h : c < 256) : chartext (chtype_of_char c) = c := by
  unfold chartext chtype_of_char
  split <;> omega

theorem chartext_addch_cells (l : Line) (k : Nat) (h : ∀ c ∈ l, c < 256) :
    (l.map (fun c => (chtype_of_char c, k))).map (fun x => chartext x.1) = l := by
  induction l with
  | nil => rfl
  | cons a t ih =>
    rw [List.map_cons, List.map_cons, ih (fun c hc => h c (List.mem_cons_of_mem a hc))]
    show chartext (chtype_of_char a) :: t = a :: t
    rw [chartext_chtype a (h a (List.mem_cons_self a t))]

theorem chartext_addstr_cells (l : Line) (k : Nat) (h : ∀ c ∈ l, c < 256) :
    (l.map (fun c => (c, k))).map (fun x => chartext x.1) = l := by
  induction l with
  | nil => rfl
  | cons a t ih =>
    rw [List.map_cons, List.map_cons, ih (fun c hc => h c (List.mem_cons_of_mem a hc))]
    show chartext a :: t = a :: t
    have ha := h a (List.mem_cons_self a t)
    rw [chartext, Nat.mod_eq_of_lt ha]

theorem mem_of_mem_take_drop (line : Line) (i n c : Nat) (h : c ∈ (line.drop i).take n) :
    c ∈ line :=
  List.mem_of_mem_drop (List.mem_of_mem_take h)

/-- What one pass through the loop body writes: cells appended to those written before;
and, for a line of bytes, unless the pass is an identifier of 100 characters or more, the
characters of these cells are the characters of the line the pass went over (all that is
left of the line when the pass ends with `break`). -/
theorem scan_iter_cells (line : Line) (s : Scan) (h : s.i < line.length) :
    ∃ cells, (scan_iter line s).1.out = s.out ++ cells ∧
      ((∀ c ∈ line, c < 256) → ((line.drop s.i).takeWhile is_word_char).length < 100 →
        cells.map (fun x => chartext x.1) =
          if (scan_iter line s).2 = true then line.drop s.i
          else (line.drop s.i).take ((scan_iter line s).1.i + 1 - s.i)) := by
  have hmem : ∀ n, (∀ c ∈ line, c < 256) → ∀ c ∈ (line.drop s.i).take n, c < 256 :=
    fun n hb c hc => hb c (mem_of_mem_take_drop line s.i n c hc)
  by_cases hin : s.in_comment = true
  · by_cases hc : char_at line s.i = 42 ∧ s.i + 1 < line.length ∧ char_at line (s.i + 1) = 47
    · rw [scan_iter_comment_close line s hin hc.1 hc.2.1 hc.2.2]
      refine ⟨[(42, 3), (47, 3)], rfl, fun _ _ => ?_⟩
      have ht := take_two_drop line s.i hc.2.1
      rw [hc.1, hc.2.2] at ht
      simp only [Bool.false_eq_true, if_false]
      rw [show s.i + 1 + 1 - s.i = 2 by omega, ht]
      rfl
    · rw [scan_iter_comment_char line s hin hc]
      refine ⟨((line.drop s.i).take 1).map (fun c => (chtype_of_char c, 3)),
        by rw [take_one_drop line s.i h]; rfl, fun hb _ => ?_⟩
      simp only [Bool.false_eq_true, if_false]
      rw [show s.i + 1 - s.i = 1 by omega]
      exact chartext_addch_cells _ _ (hmem 1 hb)
  · have hin : s.in_comment = false := by simpa using hin
    by_cases h47 : char_at line s.i = 47 ∧ s.i + 1 < line.length ∧
        (char_at line (s.i + 1) = 47 ∨ char_at line (s.i + 1) = 42)
    · rcases h47.2.2 with hn | hn
      · rw [scan_iter_line_comment line s hin h47.1 h47.2.1 hn]
        refine ⟨(line.drop s.i).map (fun c => (c, 3)), rfl, fun hb _ => ?_⟩
        simp only [if_true]
        exact chartext_addstr_cells _ _ (fun c hc => hb c (List.mem_of_mem_drop hc))
      · rw [scan_iter_open_comment line s hin h47.1 h47.2.1 hn]
        refine ⟨[(47, 3), (42, 3)], rfl, fun _ _ => ?_⟩
        have ht := take_two_drop line s.i h47.2.1
        rw [h47.1, hn] at ht
        simp only [Bool.false_eq_true, if_false]
        rw [show s.i + 1 + 1 - s.i = 2 by omega, ht]
        rfl
    · have hq : ∀ q, ∃ cells, (scan_quoted q line s).out = s.out ++ cells ∧
          ((∀ c ∈ line, c < 256) → cells.map (fun x => chartext x.1)
            = (line.drop s.i).take ((scan_quoted q line s).i + 1 - s.i)) := by
        intro q
        rw [scan_quoted_at q line s h]
        have htake : (line.drop s.i).take
            (s.i + 1 + (quoted_body q (line.drop (s.i + 1))).length + 1 - s.i)
            = char_at line s.i :: quoted_span q (line.drop (s.i + 1)) := by
          rw [quoted_span_eq_take, drop_at line s.i h]
          rw [show s.i + 1 + (quoted_body q (line.drop (s.i + 1))).length + 1 - s.i
            = ((quoted_body q (line.drop (s.i + 1))).length + 1) + 1 by omega,
            List.take_succ_cons]
        refine ⟨_, rfl, fun hb => ?_⟩
        show _ = (line.drop s.i).take
          (s.i + 1 + (quoted_body q (line.drop (s.i + 1))).length + 1 - s.i)
        rw [htake]
        apply chartext_addch_cells
        rw [← htake]
        exact hmem _ hb
      have hspan : ∀ (p : Nat → Bool) (k : Nat), p (char_at line s.i) = true →
          ∃ cells, ((emit_while p line line.length (s.attron k)).attroff.back).out
              = s.out ++ cells ∧
            ((∀ c ∈ line, c < 256) → cells.map (fun x => chartext x.1)
              = (line.drop s.i).take
                (((emit_while p line line.length (s.attron k)).attroff.back).i + 1 - s.i)) := by
        intro p k hp
        have hpos := takeWhile_head_pos p line s.i h hp
        rw [emit_span p k line s (by omega)]
        refine ⟨_, rfl, fun hb => ?_⟩
        show _ = (line.drop s.i).take
          (s.i + ((line.drop s.i).takeWhile p).length - 1 + 1 - s.i)
        rw [show s.i + ((line.drop s.i).takeWhile p).length - 1 + 1 - s.i
          = ((line.drop s.i).takeWhile p).length by omega, take_length_takeWhile]
        apply chartext_addch_cells
        rw [← take_length_takeWhile]
        exact hmem _ hb
      by_cases h34 : char_at line s.i = 34
      · rw [scan_iter_string line s hin h34]
        obtain ⟨cells, h1, h2⟩ := hq 34
        exact ⟨cells, h1, fun hb _ => by simpa using h2 hb⟩
      · by_cases h39 : char_at line s.i = 39
        · rw [scan_iter_char_literal line s hin h39]
          obtain ⟨cells, h1, h2⟩ := hq 39
          exact ⟨cells, h1, fun hb _ => by simpa using h2 hb⟩
        · by_cases h35 : char_at line s.i = 35 ∧
              (s.i = 0 ∨ isspace (char_at line (s.i - 1)) = true)
          · rw [scan_iter_hash line s hin h35.1, if_pos h35.2]
            obtain ⟨cells, h1, h2⟩ := hspan is_directive_char 5 (by rw [h35.1]; decide)
            exact ⟨cells, h1, fun hb _ => by simpa using h2 hb⟩
          · by_cases hnum : isdigit (char_at line s.i) = true ∨
                (char_at line s.i = 46 ∧ s.i + 1 < line.length ∧
                  isdigit (char_at line (s.i + 1)) = true)
            · rw [scan_iter_number line s hin hnum]
              obtain ⟨cells, h1, h2⟩ := hspan is_number_char 4
                (is_number_char_of_start _ (hnum.imp id (fun x => x.1)))
              exact ⟨cells, h1, fun hb _ => by simpa using h2 hb⟩
            · by_cases hw : isalpha (char_at line s.i) = true ∨ char_at line s.i = 95
              · rw [scan_iter_word line s hin hw, scan_word_at line s (by omega)]
                have hpos := takeWhile_head_pos is_word_char line s.i h
                  (is_word_char_of_start _ hw)
                refine ⟨_, rfl, fun hb hshort => ?_⟩
                simp only [Bool.false_eq_true, if_false, if_pos hshort]
                rw [show s.i + ((line.drop s.i).takeWhile is_word_char).length - 1 + 1 - s.i
                  = ((line.drop s.i).takeWhile is_word_char).length by omega,
                  take_length_takeWhile]
                apply chartext_addstr_cells
                rw [← take_length_takeWhile]
                exact hmem _ hb
              · rw [scan_iter_plain line s hin h47 h34 h39 h35 hnum hw]
                refine ⟨((line.drop s.i).take 1).map (fun c => (chtype_of_char c, s.attr)),
                  by rw [take_one_drop line s.i h]; rfl, fun hb _ => ?_⟩
                simp only [Bool.false_eq_true, if_false]
                rw [show (s.addch (char_at line s.i)).i + 1 - s.i = 1 by
                  show s.i + 1 - s.i = 1; omega]
                exact chartext_addch_cells _ _ (hmem 1 hb)

/-- What the loop writes from a state on: cells appended to those written before; and, for
a line of bytes in which no run of word characters reaches 100 characters, the characters
of these cells are the characters of the line from `s.i` on. -/
theorem scan_from_cells (line : Line) (n : Nat) (s : Scan) (hn : line.length - s.i ≤ n) :
    ∃ cells, (scan_from line s).out = s.out ++ cells ∧
      ((∀ c ∈ line, c < 256) →
        (∀ j, ((line.drop j).takeWhile is_word_char).length < 100) →
        cells.map (fun x => chartext x.1) = line.drop s.i) := by
  induction n generalizing s with
  | zero =>
    rw [scan_from_done line s (by omega)]
    exact ⟨[], (List.append_nil _).symm, fun _ _ => by
      rw [List.drop_eq_nil_of_le (by omega)]; rfl⟩
  | succ k ih =>
    by_cases hlt : s.i < line.length
    · obtain ⟨cells, hout, hchars⟩ := scan_iter_cells line s hlt
      rw [scan_from_step line s hlt]
      by_cases hb : (scan_iter line s).2 = true
      · rw [if_pos hb]
        refine ⟨cells, hout, fun hbytes hshort => ?_⟩
        rw [hchars hbytes (hshort s.i), if_pos hb]
      · rw [if_neg hb]
        have hp := (scan_iter_progress line s hlt).resolve_left hb
        obtain ⟨tail, hout2, hchars2⟩ := ih (scan_iter line s).1.next
          (by show line.length - ((scan_iter line s).1.i + 1) ≤ k; omega)
        refine ⟨cells ++ tail, ?_, fun hbytes hshort => ?_⟩
        · rw [hout2]
          show (scan_iter line s).1.out ++ tail = _
          rw [hout, List.append_assoc]
        · rw [List.map_append, hchars hbytes (hshort s.i), if_neg hb, hchars2 hbytes hshort]
          show _ ++ line.drop ((scan_iter line s).1.i + 1) = _
          have hd : line.drop ((scan_iter line s).1.i + 1)
              = (line.drop s.i).drop ((scan_iter line s).1.i + 1 - s.i) := by
            rw [List.drop_drop]
            congr 1
            omega
          rw [hd]
          exact List.take_append_drop _ _
    · rw [scan_from_done line s (by omega)]
      exact ⟨[], (List.append_nil _).symm, fun _ _ => by
        rw [List.drop_eq_nil_of_le (by omega)]; rfl⟩

/-- For a line of bytes in which no run of word characters reaches 100 characters, the
characters the token scan hands to the screen are those of the line, in order. -/
theorem scan_line_chars (line : Line) (in_comment : Bool) (attr : Nat)
    (hbytes : ∀ c ∈ line, c < 256)
    (hshort : ∀ j, ((line.drop j).takeWhile is_word_char).length < 100) :
    (scan_line line in_comment attr).out.map (fun x => chartext x.1) = line := by
  obtain ⟨cells, hout, hchars⟩ := scan_from_cells line line.length
    { i := 0, in_comment := in_comment, attr := attr, out := [] } (Nat.sub_le _ _)
  rw [scan_line_eq_scan_from, hout, List.nil_append, hchars hbytes hshort]
  rfl

/-! ## Highlighter: the states the scan goes through -/

theorem reaches_scan_from (line : Line) (s0 s : Scan) (h : Reaches line s0 s) :
    scan_from line s0 = scan_from line s := by
  induction h with
  | start => rfl
  | pass s _ hlt hb ih =>
    rw [ih, scan_from_step line s hlt, hb]
    rfl

/-- In normal mode a pass leaves no colour pair on, when none was on before it. -/
theorem scan_iter_normal_attr (line : Line) (s : Scan) (h : s.i < line.length)
    (hs : s.in_comment = false → s.attr = 0) :
    (scan_iter line s).1.in_comment = false → (scan_iter line s).1.attr = 0 := by
  by_cases hin : s.in_comment = true
  · by_cases hc : char_at line s.i = 42 ∧ s.i + 1 < line.length ∧ char_at line (s.i + 1) = 47
    · rw [scan_iter_comment_close line s hin hc.1 hc.2.1 hc.2.2]
      exact fun _ => rfl
    · rw [scan_iter_comment_char line s hin hc]
      intro hx
      exact absurd (hin.symm.trans hx) (by decide)
  · have hin : s.in_comment = false := by simpa using hin
    by_cases h47 : char_at line s.i = 47 ∧ s.i + 1 < line.length ∧
        (char_at line (s.i + 1) = 47 ∨ char_at line (s.i + 1) = 42)
    · rcases h47.2.2 with hn | hn
      · rw [scan_iter_line_comment line s hin h47.1 h47.2.1 hn]
        exact fun _ => rfl
      · rw [scan_iter_open_comment line s hin h47.1 h47.2.1 hn]
        intro hx
        exact absurd hx (Bool.noConfusion)
    · by_cases h34 : char_at line s.i = 34
      · rw [scan_iter_string line s hin h34, scan_quoted_at 34 line s h]
        exact fun _ => rfl
      · by_cases h39 : char_at line s.i = 39
        · rw [scan_iter_char_literal line s hin h39, scan_quoted_at 39 line s h]
          exact fun _ => rfl
        · by_cases h35 : char_at line s.i = 35 ∧
              (s.i = 0 ∨ isspace (char_at line (s.i - 1)) = true)
          · rw [scan_iter_hash line s hin h35.1, if_pos h35.2, emit_span _ _ line s (by omega)]
            exact fun _ => rfl
          · by_cases hnum : isdigit (char_at line s.i) = true ∨
                (char_at line s.i = 46 ∧ s.i + 1 < line.length ∧
                  isdigit (char_at line (s.i + 1)) = true)
            · rw [scan_iter_number line s hin hnum, emit_span _ _ line s (by omega)]
              exact fun _ => rfl
            · by_cases hw : isalpha (char_at line s.i) = true ∨ char_at line s.i = 95
              · rw [scan_iter_word line s hin hw, scan_word_at line s (by omega)]
                intro _
                show (if _ then 0 else s.attr) = 0
                split
                · rfl
                · exact hs hin
              · rw [scan_iter_plain line s hin h47 h34 h39 h35 hnum hw]
                exact fun _ => hs hin

/-- Started in comment mode or with no colour pair on, the scan meets every character it
meets in normal mode with no colour pair on. -/
theorem reaches_normal_attr (line : Line) (s0 s : Scan) (h : Reaches line s0 s)
    (h0 : s0.in_comment = false → s0.attr = 0) : s.in_comment = false → s.attr = 0 := by
  induction h with
  | start => exact h0
  | pass s _ hlt _ ih => exact scan_iter_normal_attr line s hlt ih

/-- A pass leaves the colour pair in force as it was, or leaves none on, or leaves pair 3
(Comment) on. -/
theorem scan_iter_attr (line : Line) (s : Scan) (h : s.i < line.length) :
    (scan_iter line s).1.attr = 0 ∨ (scan_iter line s).1.attr = 3 ∨
      (scan_iter line s).1.attr = s.attr := by
  by_cases hin : s.in_comment = true
  · by_cases hc : char_at line s.i = 42 ∧ s.i + 1 < line.length ∧ char_at line (s.i + 1) = 47
    · rw [scan_iter_comment_close line s hin hc.1 hc.2.1 hc.2.2]
      exact Or.inl rfl
    · rw [scan_iter_comment_char line s hin hc]
      exact Or.inr (Or.inl rfl)
  · have hin : s.in_comment = false := by simpa using hin
    by_cases h47 : char_at line s.i = 47 ∧ s.i + 1 < line.length ∧
        (char_at line (s.i + 1) = 47 ∨ char_at line (s.i + 1) = 42)
    · rcases h47.2.2 with hn | hn
      · rw [scan_iter_line_comment line s hin h47.1 h47.2.1 hn]
        exact Or.inl rfl
      · rw [scan_iter_open_comment line s hin h47.1 h47.2.1 hn]
        exact Or.inr (Or.inl rfl)
    · by_cases h34 : char_at line s.i = 34
      · rw [scan_iter_string line s hin h34, scan_quoted_at 34 line s h]
        exact Or.inl rfl
      · by_cases h39 : char_at line s.i = 39
        · rw [scan_iter_char_literal line s hin h39, scan_quoted_at 39 line s h]
          exact Or.inl rfl
        · by_cases h35 : char_at line s.i = 35 ∧
              (s.i = 0 ∨ isspace (char_at line (s.i - 1)) = true)
          · rw [scan_iter_hash line s hin h35.1, if_pos h35.2, emit_span _ _ line s (by omega)]
            exact Or.inl rfl
          · by_cases hnum : isdigit (char_at line s.i) = true ∨
                (char_at line s.i = 46 ∧ s.i + 1 < line.length ∧
                  isdigit (char_at line (s.i + 1)) = true)
            · rw [scan_iter_number line s hin hnum, emit_span _ _ line s (by omega)]
              exact Or.inl rfl
            · by_cases hw : isalpha (char_at line s.i) = true ∨ char_at line s.i = 95
              · rw [scan_iter_word line s hin hw, scan_word_at line s (by omega)]
                show (if _ then 0 else s.attr) = 0 ∨ (if _ then 0 else s.attr) = 3 ∨
                  (if _ then 0 else s.attr) = s.attr
                split
                · exact Or.inl rfl
                · exact Or.inr (Or.inr rfl)
              · rw [scan_iter_plain line s hin h47 h34 h39 h35 hnum hw]
                exact Or.inr (Or.inr rfl)

/-- Entered with no colour pair or with pair 3 (Comment) in force, the scan meets every
character with no colour pair or with pair 3 in force. -/
theorem reaches_attr (line : Line) (s0 s : Scan) (h : Reaches line s0 s)
    (h0 : s0.attr = 0 ∨ s0.attr = 3) : s.attr = 0 ∨ s.attr = 3 := by
  induction h with
  | start => exact h0
  | pass s _ hlt _ ih =>
    show (scan_iter line s).1.attr = 0 ∨ (scan_iter line s).1.attr = 3
    rcases scan_iter_attr line s hlt with h1 | h1 | h1
    · exact Or.inl h1
    · exact Or.inr h1
    · rw [h1]
      exact ih

/-- Entered with no colour pair or with pair 3 in force, the loop ends with no colour pair
or with pair 3 in force. -/
theorem scan_from_attr (line : Line) (n : Nat) (s : Scan) (hn : line.length - s.i ≤ n)
    (h0 : s.attr = 0 ∨ s.attr = 3) :
    (scan_from line s).attr = 0 ∨ (scan_from line s).attr = 3 := by
  induction n generalizing s with
  | zero =>
    rw [scan_from_done line s (by omega)]
    exact h0
  | succ k ih =>
    by_cases hlt : s.i < line.length
    · have hstep : (scan_iter line s).1.attr = 0 ∨ (scan_iter line s).1.attr = 3 := by
        rcases scan_iter_attr line s hlt with h1 | h1 | h1
        · exact Or.inl h1
        · exact Or.inr h1
        · rw [h1]
          exact h0
      rw [scan_from_step line s hlt]
      by_cases hb : (scan_iter line s).2 = true
      · rw [if_pos hb]
        exact hstep
      · rw [if_neg hb]
        have hp := (scan_iter_progress line s hlt).resolve_left hb
        exact ih (scan_iter line s).1.next
          (by show line.length - ((scan_iter line s).1.i + 1) ≤ k; omega) hstep
    · rw [scan_from_done line s (by omega)]
      exact h0

/-- The colour pair in force in the window when a line is drawn is none or pair 3
(Comment). -/
theorem window_attr_cases (attr : Nat) (h : WindowAttr attr) : attr = 0 ∨ attr = 3 := by
  induction h with
  | init => exact Or.inl rfl
  | draw attr line in_comment _ ih =>
    rw [scan_line_eq_scan_from]
    exact scan_from_attr line line.length _ (Nat.sub_le _ _) ih

/-- The loop of `draw_screen` is entered and left with a colour pair the window can have. -/
theorem window_attr_draw_rows (ed : Editor) (scroll_y rows attr : Nat) (h : WindowAttr attr) :
    WindowAttr (draw_rows ed scroll_y rows attr) := by
  induction rows with
  | zero => exact h
  | succ i ih => exact WindowAttr.draw _ _ _ ih

/-- Function `draw_screen` is entered and left with a colour pair the window can have. -/
theorem window_attr_draw_screen (ed : Editor) (scroll_y max_y attr : Nat)
    (h : WindowAttr attr) : WindowAttr (draw_screen ed scroll_y max_y attr) :=
  window_attr_draw_rows ed scroll_y _ attr h

/-! ## Highlighter: multi-line comments, line by line -/

/-- C11: a line scanned with entering state "in comment". When its first `*/` comes after
the characters `mid` (which hold no `*/`), the scan hands `mid` and the `*/` to `addch` with
colour pair 3 (Comment) in force, each character `c` as the value `chtype_of_char c` (the
character itself when it is below 128), and goes on behind the `*/` in normal mode with no
colour pair on, on the same line; when the line holds no `*/`, the whole line is written so
with colour pair 3 in force and the exiting state is "in comment". -/
theorem in_comment_line (mid rest : Line) (attr : Nat) (hno : has_close mid = false) :
    scan_line (mid ++ 42 :: 47 :: rest) true attr =
        scan_from (mid ++ 42 :: 47 :: rest)
          { i := mid.length + 2, in_comment := false, attr := 0
            out := (mid ++ [42, 47]).map (fun c => (chtype_of_char c, 3)) } ∧
      (∃ tail, (scan_line (mid ++ 42 :: 47 :: rest) true attr).out
        = (mid ++ [42, 47]).map (fun c => (chtype_of_char c, 3)) ++ tail) ∧
      (scan_line mid true attr).out = mid.map (fun c => (chtype_of_char c, 3)) ∧
      (scan_line mid true attr).in_comment = true := by
  have hfirst : scan_line (mid ++ 42 :: 47 :: rest) true attr =
      scan_from (mid ++ 42 :: 47 :: rest)
        { i := mid.length + 2, in_comment := false, attr := 0
          out := (mid ++ [42, 47]).map (fun c => (chtype_of_char c, 3)) } := by
    have h := comment_run_close (mid ++ 42 :: 47 :: rest) mid.length
      { i := 0, in_comment := true, attr := attr, out := [] } rfl
      (by simp)
      (by
        show has_close (((mid ++ 42 :: 47 :: rest).drop 0).take mid.length) = false
        rw [List.drop_zero, List.take_left' rfl]
        exact hno)
      (by
        show char_at (mid ++ 42 :: 47 :: rest) (0 + mid.length) = 42
        rw [Nat.zero_add]
        exact char_at_append mid 42 (47 :: rest))
      (by
        show char_at (mid ++ 42 :: 47 :: rest) (0 + mid.length + 1) = 47
        rw [Nat.zero_add]
        exact char_at_append_succ mid 42 47 rest)
    have htake : ((mid ++ 42 :: 47 :: rest).drop 0).take (mid.length + 2) = mid ++ [42, 47] := by
      have h3 : mid ++ 42 :: 47 :: rest = (mid ++ [42, 47]) ++ rest := by simp
      rw [List.drop_zero, h3, List.take_left' (by simp)]
    rw [scan_line_eq_scan_from, h]
    simp only [Nat.zero_add, List.nil_append, htake]
  refine ⟨hfirst, ?_, ?_, ?_⟩
  · obtain ⟨cells, hout, _⟩ := scan_from_cells (mid ++ 42 :: 47 :: rest)
      (mid ++ 42 :: 47 :: rest).length
      { i := mid.length + 2, in_comment := false, attr := 0
        out := (mid ++ [42, 47]).map (fun c => (chtype_of_char c, 3)) } (Nat.sub_le _ _)
    exact ⟨cells, by rw [hfirst, hout]⟩
  · rw [scan_line_eq_scan_from, comment_run_open mid mid.length
      { i := 0, in_comment := true, attr := attr, out := [] } rfl (Nat.zero_le _) rfl
      (by rw [List.drop_zero]; exact hno)]
    simp
  · rw [scan_line_eq_scan_from, comment_run_open mid mid.length
      { i := 0, in_comment := true, attr := attr, out := [] } rfl (Nat.zero_le _) rfl
      (by rw [List.drop_zero]; exact hno)]

theorem in_comment_line_witness :
    has_close (bytes "b ") = false ∧
      bytes "b " ++ 42 :: 47 :: bytes " int x;" = bytes "b */ int x;" ∧
      (∃ tail, (scan_line (bytes "b " ++ 42 :: 47 :: bytes " int x;") true 0).out
        = (bytes "b " ++ [42, 47]).map (fun c => (chtype_of_char c, 3)) ++ tail) ∧
      (scan_line (bytes "b */ int x;") true 0).out =
        [(98, 3), (32, 3), (42, 3), (47, 3), (32, 0), (105, 1), (110, 1), (116, 1), (32, 0),
          (120, 0), (59, 0)] ∧
      (scan_line [233, 42, 47] true 0).out = [(4294967273, 3), (42, 3), (47, 3)] :=
  ⟨by decide, by decide, (in_comment_line (bytes "b ") (bytes " int x;") 0 (by decide)).2.1,
    by decide, by decide⟩

/-- C12: when the scan, in normal mode, meets a `/*` after which the line holds no `*/`
(the state `s` is one the loop goes through, with `/` at `s.i` and `*` behind it), every
character from that `/*` to the end of the line is handed to `addch` with colour pair 3
(Comment) in force, each character `c` as the value `chtype_of_char c` (the character itself
when it is below 128), and the scan of the line ends in the state "in comment". -/
theorem open_comment_to_end (line : Line) (in_comment : Bool) (attr : Nat) (s : Scan)
    (hreach : Reaches line { i := 0, in_comment := in_comment, attr := attr, out := [] } s)
    (hin : s.in_comment = false) (h47 : char_at line s.i = 47) (hlt : s.i + 1 < line.length)
    (h42 : char_at line (s.i + 1) = 42) (hno : has_close (line.drop (s.i + 2)) = false) :
    scan_line line in_comment attr =
      { i := line.length, in_comment := true, attr := 3
        out := s.out ++ (line.drop s.i).map (fun c => (chtype_of_char c, 3)) } := by
  have hlt0 : s.i < line.length := by omega
  rw [scan_line_eq_scan_from, reaches_scan_from line _ s hreach, scan_from_step line s hlt0,
    scan_iter_open_comment line s hin h47 hlt h42]
  simp only [Bool.false_eq_true, if_false]
  rw [comment_run_open line (line.length - (s.i + 2)) _ rfl
    (by show s.i + 1 + 1 ≤ line.length; omega) rfl hno]
  have hd : line.drop s.i = 47 :: 42 :: line.drop (s.i + 2) := by
    rw [drop_at line s.i hlt0, drop_at line (s.i + 1) hlt, h47, h42]
  simp [Scan.next, hd, chtype_of_char]

theorem open_comment_to_end_witness :
    (scan_line (bytes "/* a") false 0).out = (bytes "/* a").map (fun c => (chtype_of_char c, 3)) ∧
      (scan_line (bytes "/* a") false 0).in_comment = true ∧
      (scan_line [47, 42, 233] false 0).out = [(47, 3), (42, 3), (4294967273, 3)] :=
  have h := open_comment_to_end (bytes "/* a") false 0
    { i := 0, in_comment := false, attr := 0, out := [] } (Reaches.start) rfl (by decide)
    (by decide) (by decide) (by decide)
  ⟨by rw [h]; rfl, by rw [h], by decide⟩

/-! ## Highlighter: strings, line comments and numbers -/

/-- The run `takeWhile p` is the longest initial run of characters with `p`: all its
characters have `p`, and what follows it is empty or starts with a character without `p`. -/
theorem takeWhile_longest (p : Nat → Bool) (l : Line) :
    (∀ c ∈ l.takeWhile p, p c = true) ∧
      ∃ tail, l = l.takeWhile p ++ tail ∧
        (tail = [] ∨ ∃ c t, tail = c :: t ∧ p c = false) := by
  refine ⟨fun c hc => List.mem_takeWhile_imp hc, l.dropWhile p,
    (List.takeWhile_append_dropWhile p l).symm, ?_⟩
  cases hd : l.dropWhile p with
  | nil => exact Or.inl rfl
  | cons c t =>
    refine Or.inr ⟨c, t, rfl, ?_⟩
    have h := List.head_dropWhile_not p l (by rw [hd]; exact List.cons_ne_nil _ _)
    simp only [hd, List.head_cons] at h
    simpa using h

/-- C13: when the scan, in normal mode, meets a double quote at `s.i`, the pass hands to
`addch`, with colour pair 2 (String) in force, the quote and the span behind it: the
characters up to and including the first later double quote that is not the second character
of a backslash pair, or all the rest of the line when there is none, a backslash and the
character after it being taken together; each character `c` is handed over as the value
`chtype_of_char c` (the character itself when it is below 128). The span is an initial part
of the rest of the line, the loop goes on behind it, in normal mode and with no colour pair
on. -/
theorem string_span (line : Line) (s : Scan) (hlt : s.i < line.length)
    (hin : s.in_comment = false) (hq : char_at line s.i = 34) :
    scan_iter line s =
        ({ i := s.i + 1 + (quoted_body 34 (line.drop (s.i + 1))).length
           in_comment := false
           attr := 0
           out := s.out ++ (34 :: quoted_span 34 (line.drop (s.i + 1))).map (fun c => (chtype_of_char c, 2)) },
          false) ∧
      (∃ tail, line.drop s.i = 34 :: quoted_span 34 (line.drop (s.i + 1)) ++ tail) ∧
      (34 :: quoted_span 34 (line.drop (s.i + 1))).length
        = min (line.length - s.i) ((quoted_body 34 (line.drop (s.i + 1))).length + 2) := by
  refine ⟨?_, ?_, ?_⟩
  · rw [scan_iter_string line s hin hq, scan_quoted_at 34 line s hlt, hq, hin]
  · obtain ⟨tail, ht⟩ := quoted_span_initial 34 (line.drop (s.i + 1))
    refine ⟨tail, ?_⟩
    rw [drop_at line s.i hlt, hq, List.cons_append, ← ht]
  · rw [List.length_cons, quoted_span_eq_take, List.length_take, List.length_drop]
    omega

theorem string_span_witness :
    (scan_iter [34, 97, 92, 34, 98, 34] { i := 0, in_comment := false, attr := 0, out := [] }).1.out
        = [(34, 2), (97, 2), (92, 2), (34, 2), (98, 2), (34, 2)] ∧
      (scan_line [34, 97, 92, 34, 98, 34] false 0).out
        = [(34, 2), (97, 2), (92, 2), (34, 2), (98, 2), (34, 2)] ∧
      (scan_line [34, 233, 34] false 0).out = [(34, 2), (4294967273, 2), (34, 2)] :=
  have h := (string_span [34, 97, 92, 34, 98, 34]
    { i := 0, in_comment := false, attr := 0, out := [] } (by decide) rfl (by decide)).1
  ⟨by rw [h]; decide, by decide, by decide⟩

/-- C14: when the scan, in normal mode, meets `//` (the state `s` is one the loop goes
through, with `/` at `s.i` and `/` behind it), the pass writes every character from there to
the end of the line in colour pair 3 (Comment) and leaves the loop: the scan of the line ends
with what that pass leaves, in the state "not in comment", whatever the rest of the line
holds. The pre-scan leaves the line at the same place with "not in comment". -/
theorem line_comment_ends_scan (line : Line) (in_comment : Bool) (attr : Nat) (s : Scan)
    (hreach : Reaches line { i := 0, in_comment := in_comment, attr := attr, out := [] } s)
    (hin : s.in_comment = false) (h47 : char_at line s.i = 47) (hlt : s.i + 1 < line.length)
    (hn : char_at line (s.i + 1) = 47) :
    scan_line line in_comment attr =
        { i := s.i, in_comment := false, attr := 0
          out := s.out ++ (line.drop s.i).map (fun c => (c, 3)) } ∧
      (scan_iter line s).2 = true ∧
      (∀ fuel, prescan_line line (fuel + 1) s.i false = false) := by
  have hlt0 : s.i < line.length := by omega
  refine ⟨?_, ?_, ?_⟩
  · rw [scan_line_eq_scan_from, reaches_scan_from line _ s hreach, scan_from_step line s hlt0,
      scan_iter_line_comment line s hin h47 hlt hn]
    simp only [if_true, hin]
  · rw [scan_iter_line_comment line s hin h47 hlt hn]
  · intro fuel
    have hc : char_at line s.i = 47 ∧ s.i + 1 < line.length ∧ char_at line (s.i + 1) = 47 :=
      ⟨h47, hlt, hn⟩
    simp only [prescan_line, if_pos hlt0, Bool.false_eq_true, if_false, if_pos hc]

theorem line_comment_ends_scan_witness :
    (scan_line (bytes "// /* y") false 0).in_comment = false ∧
      (scan_line (bytes "// /* y") false 0).out = (bytes "// /* y").map (fun c => (c, 3)) ∧
      prescan_line (bytes "// /* y") 7 0 false = false :=
  have h := line_comment_ends_scan (bytes "// /* y") false 0
    { i := 0, in_comment := false, attr := 0, out := [] } (Reaches.start) rfl (by decide)
    (by decide) (by decide)
  ⟨by rw [h.1], by rw [h.1]; rfl, h.2.2 6⟩

/-- The characters of a number span are below 128: `addch` receives them unchanged. -/
theorem chtype_of_number_char (c : Nat) (h : is_number_char c = true) :
    chtype_of_char c = c := by
  have hc : c < 128 := by
    simp only [is_number_char, isdigit, Bool.or_eq_true, Bool.and_eq_true, decide_eq_true_eq,
      beq_iff_eq] at h
    omega
  rw [chtype_of_char, if_pos hc]

/-- The number branch: when the scan, in normal mode, meets at `s.i` a digit, or a `.` with a
digit right behind it, the pass writes in colour pair 4 (Number) the longest run from `s.i`
of characters among the digits, `.`, `f` and `l` (all of them below 128, so `addch` receives
them unchanged), and the loop goes on behind that run; when it meets a `.` that has no
digit right behind it, the pass writes that character alone and switches no colour pair on
or off: the character is written in the pair that was in force before the pass. -/
theorem number_span (line : Line) (s : Scan) (hlt : s.i < line.length)
    (hin : s.in_comment = false) :
    ((isdigit (char_at line s.i) = true ∨
        (char_at line s.i = 46 ∧ s.i + 1 < line.length ∧
          isdigit (char_at line (s.i + 1)) = true)) →
      scan_iter line s =
        ({ i := s.i + ((line.drop s.i).takeWhile is_number_char).length - 1
           in_comment := false
           attr := 0
           out := s.out ++ ((line.drop s.i).takeWhile is_number_char).map (fun c => (c, 4)) },
          false) ∧
      1 ≤ ((line.drop s.i).takeWhile is_number_char).length ∧
      (∀ c ∈ (line.drop s.i).takeWhile is_number_char, is_number_char c = true) ∧
      ∃ tail, line.drop s.i = (line.drop s.i).takeWhile is_number_char ++ tail ∧
        (tail = [] ∨ ∃ c t, tail = c :: t ∧ is_number_char c = false)) ∧
    (char_at line s.i = 46 →
      ¬ (s.i + 1 < line.length ∧ isdigit (char_at line (s.i + 1)) = true) →
      scan_iter line s = ({ s with out := s.out ++ [(46, s.attr)] }, false)) := by
  constructor
  · intro hnum
    refine ⟨?_, takeWhile_head_pos is_number_char line s.i hlt
      (is_number_char_of_start _ (hnum.imp id (fun x => x.1))),
      takeWhile_longest is_number_char (line.drop s.i)⟩
    rw [scan_iter_number line s hin hnum, emit_span _ _ line s (by omega), hin]
    have hmap : ((line.drop s.i).takeWhile is_number_char).map (fun c => (chtype_of_char c, 4))
        = ((line.drop s.i).takeWhile is_number_char).map (fun c => (c, 4)) := by
      apply List.map_congr_left
      intro c hc
      rw [chtype_of_number_char c (List.mem_takeWhile_imp hc)]
    rw [hmap]
  · intro h46 hnd
    have hnum : ¬ (isdigit (char_at line s.i) = true ∨
        (char_at line s.i = 46 ∧ s.i + 1 < line.length ∧
          isdigit (char_at line (s.i + 1)) = true)) := by
      intro hx
      rcases hx with hx | hx
      · rw [h46] at hx
        exact absurd hx (by decide)
      · exact hnd hx.2
    rw [scan_iter_plain line s hin (by rw [h46]; exact fun hx => absurd hx.1 (by decide))
      (by rw [h46]; decide) (by rw [h46]; decide)
      (by rw [h46]; exact fun hx => absurd hx.1 (by decide)) hnum
      (by rw [h46]; decide)]
    rw [h46]
    rfl

theorem number_span_witness :
    (scan_iter (bytes "1.2.3f") { i := 0, in_comment := false, attr := 0, out := [] }).1.out
        = (bytes "1.2.3f").map (fun c => (c, 4)) ∧
      (scan_line (bytes "1.2.3f") false 0).out = (bytes "1.2.3f").map (fun c => (c, 4)) ∧
      (scan_line (bytes "a.b") false 0).out = [(97, 0), (46, 0), (98, 0)] :=
  have h := ((number_span (bytes "1.2.3f")
    { i := 0, in_comment := false, attr := 0, out := [] } (by decide) rfl).1
      (Or.inl (by decide))).1
  ⟨by rw [h]; decide, by decide, by decide⟩

/-- C17: in the buffer of the lines `a.b` and `/* c`, a first `draw_screen` (entered with no
colour pair in force) writes `a.b` with no colour pair and leaves colour pair 3 (Comment) in
force; the next `draw_screen` scans `a.b` in normal mode, the `.` has no digit behind it,
and the scan writes it in colour pair 3, not with no colour pair (Plain). -/
theorem dot_written_in_comment_colour :
    row_cells dot_buffer 0 0 0 = [(97, 0), (46, 0), (98, 0)] ∧
      draw_screen dot_buffer 0 24 0 = 3 ∧
      prescan dot_buffer.lines 0 = false ∧
      isdigit (char_at (dot_buffer.lines 0) 2) = false ∧
      row_cells dot_buffer 0 0 (draw_screen dot_buffer 0 24 0)
        = [(97, 3), (46, 3), (98, 3)] ∧
      (scan_iter [46] { i := 0, in_comment := false, attr := 3, out := [] }).1.out
        = [(46, 3)] := by
  decide

/-! ## Highlighter: directives, identifiers and the characters written -/

/-- C15 (as stated, refuted): in the line `x #y` the `#` stands at column 2 behind the
letter `x` and a space, so not every character before it is whitespace, yet the scan writes
`#y` in colour pair 5 (Preprocessor); in the line `#a`, carriage return, `b` the span in
colour pair 5 runs over the carriage return, a whitespace character, to the end; and in
the buffer of the lines `a#b` and `/* c`, a first `draw_screen` leaves colour pair 3
(Comment) in force, so that the next `draw_screen` writes the `#` of `a#b`, met in normal
mode behind the letter `a`, in colour pair 3 and not with no colour pair (Plain). -/
theorem hash_after_text_is_directive :
    (scan_line (bytes "x #y") false 0).out = [(120, 0), (32, 0), (35, 5), (121, 5)] ∧
      isspace 120 = false ∧
      (scan_line [35, 97, 13, 98] false 0).out = [(35, 5), (97, 5), (13, 5), (98, 5)] ∧
      isspace 13 = true ∧
      draw_screen hash_buffer 0 24 0 = 3 ∧
      prescan hash_buffer.lines 0 = false ∧
      row_cells hash_buffer 0 0 (draw_screen hash_buffer 0 24 0)
        = [(97, 3), (35, 3), (98, 3)] := by
  decide

/-- C15 (amended): when the scan, in normal mode, meets a `#` at `s.i`: if it is at column 0
or the character right before it is whitespace, the pass writes in colour pair 5
(Preprocessor) the `#` and the characters behind it up to, and not including, the next space
or tab, or up to the end of the line, each handed to `addch`, and leaves no colour pair on;
otherwise the pass writes the `#` alone and switches no colour pair on or off, so that the
`#` is written with no colour pair (Plain) whenever none was in force before the pass, and
in every state the scan goes through the pair in force before the pass is none or pair 3
(Comment), never pair 5. -/
theorem hash_span (line : Line) (s : Scan) (hlt : s.i < line.length)
    (hin : s.in_comment = false) (h35 : char_at line s.i = 35) :
    ((s.i = 0 ∨ isspace (char_at line (s.i - 1)) = true) →
      scan_iter line s =
        ({ i := s.i + ((line.drop s.i).takeWhile is_directive_char).length - 1
           in_comment := false
           attr := 0
           out := s.out ++
             ((line.drop s.i).takeWhile is_directive_char).map
               (fun c => (chtype_of_char c, 5)) },
          false) ∧
      (line.drop s.i).takeWhile is_directive_char
        = 35 :: (line.drop (s.i + 1)).takeWhile is_directive_char ∧
      (∀ c ∈ (line.drop s.i).takeWhile is_directive_char, c ≠ 32 ∧ c ≠ 9) ∧
      ∃ tail, line.drop s.i = (line.drop s.i).takeWhile is_directive_char ++ tail ∧
        (tail = [] ∨ ∃ c t, tail = c :: t ∧ (c = 32 ∨ c = 9))) ∧
    (¬ (s.i = 0 ∨ isspace (char_at line (s.i - 1)) = true) →
      scan_iter line s = ({ s with out := s.out ++ [(35, s.attr)] }, false) ∧
      (s.attr = 0 →
        scan_iter line s = ({ s with out := s.out ++ [(35, 0)] }, false)) ∧
      (∀ attr in_comment, WindowAttr attr →
        Reaches line { i := 0, in_comment := in_comment, attr := attr, out := [] } s →
        (s.attr = 0 ∨ s.attr = 3) ∧ s.attr ≠ 5)) := by
  constructor
  · intro hsp
    obtain ⟨hall, tail, htail, hstop⟩ := takeWhile_longest is_directive_char (line.drop s.i)
    refine ⟨?_, ?_, ?_, tail, htail, ?_⟩
    · rw [scan_iter_hash line s hin h35, if_pos hsp, emit_span _ _ line s (by omega), hin]
    · rw [drop_at line s.i hlt, h35, List.takeWhile_cons_of_pos (by decide)]
    · intro c hc
      have hp := hall c hc
      simp only [is_directive_char, Bool.and_eq_true, bne_iff_ne, ne_eq] at hp
      exact hp
    · rcases hstop with hnil | ⟨c, t, hct, hp⟩
      · exact Or.inl hnil
      · refine Or.inr ⟨c, t, hct, ?_⟩
        simp only [is_directive_char, Bool.and_eq_false_iff, bne_eq_false_iff_eq] at hp
        exact hp
  · intro hsp
    have hplain : scan_iter line s = ({ s with out := s.out ++ [(35, s.attr)] }, false) := by
      rw [scan_iter_hash line s hin h35, if_neg hsp]
      rfl
    refine ⟨hplain, fun hattr => ?_, fun attr in_comment hwin hreach => ?_⟩
    · rw [hplain, hattr]
    · have h03 := reaches_attr line _ s hreach (window_attr_cases attr hwin)
      refine ⟨h03, ?_⟩
      rcases h03 with h | h <;> rw [h] <;> decide

theorem hash_span_witness :
    (scan_iter (bytes "#include <x.h>")
        { i := 0, in_comment := false, attr := 0, out := [] }).1.out
        = (bytes "#include").map (fun c => (c, 5)) ∧
      (scan_iter (bytes "a#b") { i := 1, in_comment := false, attr := 0, out := [(97, 0)] }).1.out
        = [(97, 0), (35, 0)] ∧
      (scan_line (bytes "a#b") false 0).out = [(97, 0), (35, 0), (98, 0)] :=
  have h := ((hash_span (bytes "#include <x.h>")
    { i := 0, in_comment := false, attr := 0, out := [] } (by decide) rfl (by decide)).1
      (Or.inl rfl)).1
  have h2 := ((hash_span (bytes "a#b")
    { i := 1, in_comment := false, attr := 0, out := [(97, 0)] } (by decide) rfl (by decide)).2
      (by decide)).2.1 rfl
  ⟨by rw [h]; decide, by rw [h2]; rfl, by decide⟩

theorem keywords_take : keywords.take 32 = keywords := by decide

theorem is_c_keyword_iff (w : Line) : is_c_keyword w = true ↔ w ∈ keywords := by
  rw [is_c_keyword, keywords_take, List.any_eq_true]
  constructor
  · rintro ⟨k, hk, hwk⟩
    rw [beq_iff_eq] at hwk
    rw [hwk]
    exact hk
  · intro hw
    exact ⟨w, hw, by rw [beq_iff_eq]⟩

theorem keywords_short : ∀ k ∈ keywords, k.length < 100 := by decide

/-- C16: when the scan, in normal mode, meets a letter or an underscore at `s.i`, the
identifier span is the longest run of letters, digits and underscores from `s.i`; the pass
writes it in colour pair 1 (Keyword) when its text is a keyword; when it is not, the pass
switches no colour pair on or off and writes the span in the pair in force before it, or not
at all when the span has 100 characters or more, and in every state the scan goes through,
whatever the window was left with by the lines drawn before, that pair is none or pair 3
(Comment), never pair 1. The function `is_c_keyword` holds of a string exactly when it is one
of the 32 entries of the table, which are distinct; it does not hold of `integer`, `Int`,
`int_`. -/
theorem keyword_span (line : Line) (s : Scan) (hlt : s.i < line.length)
    (hin : s.in_comment = false)
    (hw : isalpha (char_at line s.i) = true ∨ char_at line s.i = 95) :
    (is_c_keyword ((line.drop s.i).takeWhile is_word_char) = true →
      scan_iter line s =
        ({ i := s.i + ((line.drop s.i).takeWhile is_word_char).length - 1
           in_comment := false
           attr := 0
           out := s.out ++ ((line.drop s.i).takeWhile is_word_char).map (fun c => (c, 1)) },
          false)) ∧
    (is_c_keyword ((line.drop s.i).takeWhile is_word_char) = false →
      scan_iter line s =
        ({ i := s.i + ((line.drop s.i).takeWhile is_word_char).length - 1
           in_comment := false
           attr := s.attr
           out := s.out ++
             if ((line.drop s.i).takeWhile is_word_char).length < 100 then
               ((line.drop s.i).takeWhile is_word_char).map (fun c => (c, s.attr))
             else [] },
          false)) ∧
    (∀ attr in_comment, WindowAttr attr →
      Reaches line { i := 0, in_comment := in_comment, attr := attr, out := [] } s →
      (s.attr = 0 ∨ s.attr = 3) ∧ s.attr ≠ 1) ∧
    ((∀ c ∈ (line.drop s.i).takeWhile is_word_char, is_word_char c = true) ∧
      ∃ tail, line.drop s.i = (line.drop s.i).takeWhile is_word_char ++ tail ∧
        (tail = [] ∨ ∃ c t, tail = c :: t ∧ is_word_char c = false)) ∧
    1 ≤ ((line.drop s.i).takeWhile is_word_char).length ∧
    keywords.length = 32 ∧ keywords.Nodup ∧
    (∀ w, is_c_keyword w = true ↔ w ∈ keywords) ∧
    is_c_keyword (bytes "integer") = false ∧ is_c_keyword (bytes "Int") = false ∧
    is_c_keyword (bytes "int_") = false := by
  refine ⟨?_, ?_, ?_, takeWhile_longest is_word_char (line.drop s.i),
    takeWhile_head_pos is_word_char line s.i hlt (is_word_char_of_start _ hw),
    by decide, by decide, is_c_keyword_iff, by decide, by decide, by decide⟩
  · intro hk
    have hshort : ((line.drop s.i).takeWhile is_word_char).length < 100 :=
      keywords_short _ ((is_c_keyword_iff _).mp hk)
    rw [scan_iter_word line s hin hw, scan_word_at line s (by omega), hin]
    simp [hshort, hk]
  · intro hk
    rw [scan_iter_word line s hin hw, scan_word_at line s (by omega), hin]
    simp [hk]
  · intro attr in_comment hwin hreach
    have h03 := reaches_attr line _ s hreach (window_attr_cases attr hwin)
    refine ⟨h03, ?_⟩
    rcases h03 with h | h <;> rw [h] <;> decide

theorem keyword_span_witness :
    (scan_iter (bytes "int x;") { i := 0, in_comment := false, attr := 0, out := [] }).1.out
        = (bytes "int").map (fun c => (c, 1)) ∧
      (scan_iter (bytes "int x;") { i := 0, in_comment := false, attr := 3, out := [] }).1.out
        = (bytes "int").map (fun c => (c, 1)) ∧
      (scan_iter (bytes "x") { i := 0, in_comment := false, attr := 3, out := [] }).1.out
        = [(120, 3)] ∧
      (scan_line (bytes "int integer Int int_") false 0).out
        = (bytes "int").map (fun c => (c, 1))
          ++ (bytes " integer Int int_").map (fun c => (c, 0)) :=
  have h := (keyword_span (bytes "int x;")
    { i := 0, in_comment := false, attr := 0, out := [] } (by decide) rfl
      (Or.inl (by decide))).1 (by decide)
  ⟨by rw [h]; decide, by decide, by decide, by decide⟩

/-- C18: on the line that is one identifier of 100 letters the token scan runs to the end
of the line and writes nothing: the 100 characters of the line are missing from what
`addch` and `addstr` were given. -/
theorem long_identifier_not_written :
    long_identifier.length = 100 ∧
      (scan_line long_identifier false 0).out = [] ∧
      (scan_line long_identifier false 0).i = 100 ∧
      (scan_line long_identifier false 0).out.map Prod.fst ≠ long_identifier := by
  have hi : (scan_line long_identifier false 0).i = 100 := by decide
  have hout : (scan_line long_identifier false 0).out = [] := by decide
  refine ⟨by decide, hout, hi, ?_⟩
  rw [hout]
  decide

end EditorC
